import Mathlib

/-!
Verification of the MarkFlow bookmark-library core: the data model, the
Netscape HTML serializer (`exportToHTML`) and parser (`parseBookmarksHTML`),
the proposal applier (`applySuggestion`) with its folder-path resolver, and
the background action handler with name-index resolution.  Definitions are
shallow embeddings of the TypeScript source; identifier generation
(`Math.random().toString(36)`) is modelled by a deterministic fresh-name
supply, and recursion over user-supplied trees is fuel-bounded so that all
definitions compute.
-/

set_option maxRecDepth 10000

namespace Markflow

/-- Bookmark record, from `src/utils/bookmarkParser.ts`.  Optional fields are
`Option`; a missing field is `none`. -/
structure Bookmark where
  id : String
  title : String
  url : String
  addDate : Option String := none
  icon : Option String := none
  tags : Option (List String) := none
  folder : Option String := none
deriving DecidableEq

/-- Folder record, from `src/utils/bookmarkParser.ts`. -/
structure Folder where
  id : String
  name : String
  parentId : Option String := none
deriving DecidableEq

/-- The aggregate library, from `src/utils/bookmarkParser.ts`. -/
structure BookmarkLibrary where
  bookmarks : List Bookmark
  folders : List Folder
deriving DecidableEq

/-- The double-quote character. -/
def quoteChar : Char := Char.ofNat 34

/-- The apostrophe character. -/
def aposChar : Char := Char.ofNat 39

/-- Escape of a single character: the five HTML-significant characters are
replaced by entities, all others kept.  This is the per-character effect of
the five sequential global `replace` calls in `escapeHtml`
(`src/utils/bookmarkParser.ts` lines 84-91): `&` is replaced first, so the
`&` introduced by later replacements is never re-escaped, and none of the
replacement strings contain `<`, `>`, `"` or the apostrophe. -/
def escChar (c : Char) : String :=
  if c = '&' then "&amp;"
  else if c = '<' then "&lt;"
  else if c = '>' then "&gt;"
  else if c = quoteChar then "&quot;"
  else if c = aposChar then "&#039;"
  else String.mk [c]

/-- Character-level worker for `escapeHtml`. -/
def escapeData : List Char → List Char
  | [] => []
  | c :: cs => (escChar c).data ++ escapeData cs

/-- `escapeHtml` from `src/utils/bookmarkParser.ts` lines 84-91. -/
def escapeHtml (s : String) : String :=
  String.mk (escapeData s.data)

/-- Decoding of the five character references produced by `escapeHtml`.
Modelled from the spec: the browser DOM (`textContent` / `getAttribute`)
decodes character references; this model decodes exactly the five entities
the serializer can emit and leaves any other text alone. -/
def decodeEnt : List Char → List Char
  | [] => []
  | '&' :: 'a' :: 'm' :: 'p' :: ';' :: rest => '&' :: decodeEnt rest
  | '&' :: 'l' :: 't' :: ';' :: rest => '<' :: decodeEnt rest
  | '&' :: 'g' :: 't' :: ';' :: rest => '>' :: decodeEnt rest
  | '&' :: 'q' :: 'u' :: 'o' :: 't' :: ';' :: rest => quoteChar :: decodeEnt rest
  | '&' :: '#' :: '0' :: '3' :: '9' :: ';' :: rest => aposChar :: decodeEnt rest
  | c :: rest => c :: decodeEnt rest

/-- A run of `n` spaces, as in `' '.repeat(indent)`. -/
def spaces (n : Nat) : String := String.mk (List.replicate n ' ')

/-- A one-character string holding a double quote. -/
def dq : String := String.mk [quoteChar]

/-- Renders an optional attribute: in the source the template is
`b.addDate ? ` ADD_DATE="..."` : ''`, so both a missing and an
empty-string value (JavaScript falsy) omit the attribute. -/
def optAttr (nm : String) (v : Option String) : String :=
  match v with
  | some s => if s = "" then "" else " " ++ nm ++ "=" ++ dq ++ escapeHtml s ++ dq
  | none => ""

/-- The opening markup a folder contributes in `renderItems`
(`src/utils/bookmarkParser.ts` lines 109-112). -/
def renderFolderOpen (indent : Nat) (nm : String) : String :=
  spaces indent ++ "<DT><H3>" ++ escapeHtml nm ++ "</H3>\n" ++ spaces indent ++ "<DL><p>\n"

/-- The closing markup a folder contributes in `renderItems`. -/
def renderFolderClose (indent : Nat) : String :=
  spaces indent ++ "</DL><p>\n"

/-- The markup a bookmark contributes in `renderItems`
(`src/utils/bookmarkParser.ts` lines 119-122). -/
def renderBookmark (indent : Nat) (b : Bookmark) : String :=
  spaces indent ++ "<DT><A HREF=" ++ dq ++ escapeHtml b.url ++ dq
    ++ optAttr "ADD_DATE" b.addDate ++ optAttr "ICON" b.icon
    ++ ">" ++ escapeHtml b.title ++ "</A>\n"

/-- The recursive `renderItems` of `exportToHTML`
(`src/utils/bookmarkParser.ts` lines 105-123): at each level the direct
child folders of the current parent are rendered first, then its direct
bookmarks.  The JavaScript recursion is bounded here by a fuel argument;
`exportToHTML` passes fuel exceeding the number of folders, which covers
every run on which the JavaScript terminates. -/
def renderItems (L : BookmarkLibrary) : Nat → Option String → Nat → String
  | 0, _, _ => ""
  | fuel + 1, parentId, indent =>
      String.join ((L.folders.filter (fun f => f.parentId == parentId)).map (fun f =>
        renderFolderOpen indent f.name
          ++ renderItems L fuel (some f.id) (indent + 4)
          ++ renderFolderClose indent))
      ++ String.join ((L.bookmarks.filter (fun b => b.folder == parentId)).map
          (renderBookmark indent))

/-- The fixed header block of `exportToHTML`
(`src/utils/bookmarkParser.ts` lines 94-102). -/
def exportHeader : String :=
  "<!DOCTYPE NETSCAPE-Bookmark-file-1>\n<!-- This is an automatically generated file.\n     It will be read and overwritten.\n     DO NOT EDIT! -->\n<META HTTP-EQUIV=\"Content-Type\" CONTENT=\"text/html; charset=UTF-8\">\n<TITLE>Bookmarks</TITLE>\n<H1>Bookmarks</H1>\n<DL><p>\n"

/-- `exportToHTML` from `src/utils/bookmarkParser.ts` lines 93-128. -/
def exportToHTML (L : BookmarkLibrary) : String :=
  exportHeader ++ renderItems L (L.folders.length + 1) none 4 ++ "</DL><p>"

/-- Boolean prefix test on character lists. -/
def isPrefixOfChars : List Char → List Char → Bool
  | [], _ => true
  | _ :: _, [] => false
  | a :: as, b :: bs => (a == b) && isPrefixOfChars as bs

/-- Boolean contiguous-substring test on character lists. -/
def containsSeg (sub : List Char) : List Char → Bool
  | [] => isPrefixOfChars sub []
  | c :: cs => isPrefixOfChars sub (c :: cs) || containsSeg sub cs

/-- Substring test on strings. -/
def strContains (s sub : String) : Bool := containsSeg sub.data s.data

/-! ## Proposal application (`applySuggestion`, App.tsx) -/

/-- One folder entry of an AI proposal: a slash-delimited path.  The
`description` field of the JSON payload is never read by `applySuggestion`
and is omitted. -/
structure SuggestionFolder where
  path : String
deriving DecidableEq

/-- One assignment entry of an AI proposal. -/
structure SuggestionAssignment where
  bookmarkId : String
  folderPath : String
deriving DecidableEq

/-- An AI proposal as consumed by `applySuggestion`; the `reasoning` string
is display-only and omitted. -/
structure Suggestion where
  folders : List SuggestionFolder
  assignments : List SuggestionAssignment
deriving DecidableEq

/-- Deterministic fresh-identifier supply standing in for
`Math.random().toString(36).substr(2, 9)`; only distinctness of the
generated identifiers matters. -/
def freshId (n : Nat) : String := String.mk (List.replicate (n + 1) 'f')

/-- `String.prototype.split` with a single-character separator, over the
underlying character list. -/
def splitOnChar (sep : Char) : List Char → List (List Char)
  | [] => [[]]
  | c :: cs =>
      match splitOnChar sep cs with
      | [] => [[]]
      | r :: rs => if c = sep then [] :: r :: rs else (c :: r) :: rs

/-- `path.split('/')` as used by `applySuggestion`. -/
def splitPath (s : String) : List String := (splitOnChar '/' s.data).map String.mk

/-- State threaded through the path resolver inside `applySuggestion`
(App.tsx lines 161-183): the `pathMap` from accumulated path strings to
synthesized folder ids, the `newFolders` list in push order, and the
fresh-id counter. -/
structure ResolveState where
  pathMap : List (String × String)
  newFolders : List Folder
  counter : Nat
deriving DecidableEq

/-- Association-list lookup on string keys (first binding wins, like a
JavaScript `Map` whose keys are inserted at most once). -/
def alookup {α : Type} (k : String) : List (String × α) → Option α
  | [] => none
  | (k2, v) :: rest => if k2 = k then some v else alookup k rest

/-- `currentPath = currentPath ? currentPath + "/" + part : part`: the
accumulated-path extension step of the resolver. -/
def accKey (cur part : String) : String :=
  if cur = "" then part else cur ++ "/" ++ part

/-- One iteration of the inner `parts.forEach` loop of the path resolver:
extend the accumulated path with the next segment, synthesize a folder for
it if the accumulated path is new, and step the current parent to the id
now mapped to the accumulated path. -/
def stepPart (acc : Option String × String × ResolveState) (part : String) :
    Option String × String × ResolveState :=
  let parent := acc.1
  let curPath := acc.2.1
  let st := acc.2.2
  let newPath := accKey curPath part
  match alookup newPath st.pathMap with
  | some fid => (some fid, newPath, st)
  | none =>
      let fid := freshId st.counter
      ((some fid), newPath,
        { pathMap := (newPath, fid) :: st.pathMap,
          newFolders := st.newFolders ++ [{ id := fid, name := part, parentId := parent }],
          counter := st.counter + 1 })

/-- Resolution of a single proposal path (the outer loop body of
App.tsx lines 165-183). -/
def resolvePath (st : ResolveState) (path : String) : ResolveState :=
  ((splitPath path).foldl stepPart (none, "", st)).2.2

/-- Resolution of all proposal paths in order. -/
def resolveFolders (st : ResolveState) (fs : List SuggestionFolder) : ResolveState :=
  fs.foldl (fun s f => resolvePath s f.path) st

/-- The resolver's initial state. -/
def initResolve : ResolveState := ⟨[], [], 0⟩

/-- `updatedBookmarks.findIndex(b => b.id === a.bookmarkId)` followed by the
slot update `updatedBookmarks[index] = {...old, folder}`: only the first
bookmark with the given id has its `folder` field replaced. -/
def setFolderOnFirst (bid fid : String) : List Bookmark → List Bookmark
  | [] => []
  | b :: bs =>
      if b.id = bid then { b with folder := some fid } :: bs
      else b :: setFolderOnFirst bid fid bs

/-- One iteration of the `suggestion.assignments.forEach` loop
(App.tsx lines 185-193): an assignment whose path is absent from the
resolver's map is skipped. -/
def applyAssignment (pathMap : List (String × String)) (bs : List Bookmark)
    (a : SuggestionAssignment) : List Bookmark :=
  match alookup a.folderPath pathMap with
  | none => bs
  | some fid => setFolderOnFirst a.bookmarkId fid bs

/-- `applySuggestion` (App.tsx lines 151-206, state-update core): resolve
the proposal's folder paths to a fresh folder list, rewrite the `folder`
field of assigned bookmarks, and replace the library's folder list
wholesale. -/
def applySuggestion (L : BookmarkLibrary) (s : Suggestion) : BookmarkLibrary :=
  let st := resolveFolders initResolve s.folders
  { bookmarks := s.assignments.foldl (applyAssignment st.pathMap) L.bookmarks,
    folders := st.newFolders }

/-! ## Background action handling (`src/background/index.ts`) -/

/-- An incremental action emitted by the command service. -/
inductive BMAction where
  | createFolder (name : String) (parentId : Option String)
  | moveBookmarks (bookmarkIds : List String) (targetFolderId : String)
deriving DecidableEq

/-- JavaScript truthiness of an optional string: `undefined` and the empty
string are falsy. -/
def jsTruthyOpt : Option String → Bool
  | some v => !(v == "")
  | none => false

/-- `v || d` for a possibly-missing string `v`. -/
def jsOrStr (v : Option String) (d : String) : String :=
  match v with
  | some s => if s = "" then d else s
  | none => d

/-- `v || undefined` for a possibly-missing string `v`. -/
def jsOrUndef (v : Option String) : Option String :=
  match v with
  | some s => if s = "" then none else some s
  | none => none

/-- The target-id resolution of the `MOVE_BOOKMARKS` branch
(`src/background/index.ts` lines 82-94): first the session-created index,
then the name index over the live tree (warning and first id on an
ambiguous name), otherwise the supplied identifier is used as-is.  The
second component collects the warnings emitted. -/
def resolveTarget (created : List (String × String))
    (nameIdx : List (String × List String)) (t : String) :
    Option String × List String :=
  if jsTruthyOpt (alookup t created) then (alookup t created, [])
  else
    match alookup t nameIdx with
    | some ids =>
        if ids.length == 1 then (ids.head?, [])
        else (ids.head?, ["ambiguous folder name " ++ t])
    | none => (some t, [])

/-- State threaded through a batch of background actions: the
session-created folder index, the `chrome.bookmarks.move` calls issued, the
warnings logged, and the fresh-id counter for ids returned by
`chrome.bookmarks.create`. -/
structure BgState where
  created : List (String × String)
  creates : List (String × String × String)
  moves : List (String × String)
  warnings : List String
  counter : Nat
deriving DecidableEq

/-- Fresh ids handed back by the browser for created folders. -/
def chromeFreshId (n : Nat) : String := String.mk (List.replicate (n + 1) 'c')

/-- JavaScript object-property assignment `createdFolders[name] = id`
(overwrite if present, append otherwise). -/
def setAssoc (k v : String) : List (String × String) → List (String × String)
  | [] => [(k, v)]
  | (k2, v2) :: rest => if k2 = k then (k, v) :: rest else (k2, v2) :: setAssoc k v rest

/-- The background `onAction` callback (`src/background/index.ts`
lines 71-107), as a pure state transformer.  `newBkId` is the id of the
bookmark whose creation triggered the batch.  `creates` records the
`chrome.bookmarks.create` calls (name, parent id after the `|| "1"`
default, returned id); `moves` records the `chrome.bookmarks.move` calls
(bookmark id, resolved target). -/
def handleBgAction (nameIdx : List (String × List String)) (newBkId : String)
    (st : BgState) (a : BMAction) : BgState :=
  match a with
  | BMAction.createFolder name parentId =>
      let nid := chromeFreshId st.counter
      { st with
        created := setAssoc name nid st.created,
        creates := st.creates ++ [(name, jsOrStr parentId "1", nid)],
        counter := st.counter + 1 }
  | BMAction.moveBookmarks bookmarkIds targetFolderId =>
      let r := resolveTarget st.created nameIdx targetFolderId
      let st1 := { st with warnings := st.warnings ++ r.2 }
      if bookmarkIds.contains newBkId && jsTruthyOpt r.1 then
        { st1 with moves := st1.moves ++ [(newBkId, jsOrStr r.1 "")] }
      else
        { st1 with warnings := st1.warnings ++
            ["could not resolve target folder for " ++ targetFolderId] }

/-- A batch of actions processed sequentially, as `processCommand` invokes
the callback action by action. -/
def runBatch (nameIdx : List (String × List String)) (newBkId : String)
    (acts : List BMAction) : BgState :=
  acts.foldl (handleBgAction nameIdx newBkId) ⟨[], [], [], [], 0⟩

/-- A node of the host browser's bookmark tree (`chrome.bookmarks`):
folders have no `url`. -/
inductive BTreeNode where
  | node (id : String) (title : String) (url : Option String)
      (children : List BTreeNode)

/-- Accumulator of the background `traverse` (`src/background/index.ts`
lines 31-51): the collected folder list and the name-to-ids index in
traversal order. -/
structure TravAcc where
  folders : List Folder
  nameIdx : List (String × List String)
deriving DecidableEq

/-- `folderNameMap[title].push(id)`: append the id to the entry for the
title, creating the entry if needed. -/
def pushName (nm id : String) : List (String × List String) → List (String × List String)
  | [] => [(nm, [id])]
  | (k, ids) :: rest =>
      if k = nm then (k, ids ++ [id]) :: rest else (k, ids) :: pushName nm id rest

/-- The pre-order `traverse` of the host bookmark tree: a node with a falsy
`url` and id other than `"0"` is collected as a folder and indexed by name;
children are always traversed, with the synthetic root contributing no
parent id.  The recursion is fuel-bounded to stay structural. -/
def traverseList : Nat → Option String → List BTreeNode → TravAcc → TravAcc
  | 0, _, _, acc => acc
  | _ + 1, _, [], acc => acc
  | fuel + 1, pid, BTreeNode.node id title url children :: rest, acc =>
      let acc1 :=
        if !jsTruthyOpt url && !(id == "0") then
          { folders := acc.folders ++ [⟨id, title, pid⟩],
            nameIdx := pushName title id acc.nameIdx }
        else acc
      let acc2 := traverseList fuel (if id = "0" then none else some id) children acc1
      traverseList fuel pid rest acc2

/-- The name index built from the host tree before a batch runs. -/
def buildNameIdx (fuel : Nat) (roots : List BTreeNode) : TravAcc :=
  traverseList fuel none roots ⟨[], []⟩

/-! ## The DOM document model

`parseBookmarksHTML` runs over a DOM document produced by the browser's
`DOMParser`, which is a platform API, not repository code.  The document
model and the HTML-to-DOM step below are therefore modelled from the spec
(section 4.1 describes parsing at the level of definition lists, term
entries, links and headings), restricted to the tag-soup rules the
Netscape dialect exercises: optional end tags for `dt` and `p`, character
reference decoding, and case-insensitive tag and attribute names. -/

/-- A DOM node: an element with tag, attributes and children, or a text
node. -/
inductive DomNode where
  | elem (tag : String) (attrs : List (String × String)) (children : List DomNode)
  | text (s : String)

/-- One token of the HTML tokenizer. -/
inductive Tok where
  | tagOpen (tag : String) (attrs : List (String × String))
  | tagClose (tag : String)
  | chars (s : String)
deriving DecidableEq

/-- Characters allowed in tag names. -/
def isNameChar (c : Char) : Bool := c.isAlpha || c.isDigit

/-- Characters allowed in attribute names. -/
def isAttrNameChar (c : Char) : Bool :=
  c.isAlpha || c.isDigit || c == '_' || c == '-'

/-- Split a character list at the longest prefix satisfying `p`. -/
def takeWhileList (p : Char → Bool) : List Char → List Char × List Char
  | [] => ([], [])
  | c :: cs =>
      if p c then
        match takeWhileList p cs with
        | (pre, post) => (c :: pre, post)
      else ([], c :: cs)

/-- Drop characters up to and including the first occurrence of `stop`. -/
def dropThrough (stop : Char) : List Char → List Char
  | [] => []
  | c :: cs => if c = stop then cs else dropThrough stop cs

/-- Drop a comment body up to and including the closing three-character
delimiter. -/
def dropComment : List Char → List Char
  | [] => []
  | '-' :: '-' :: '>' :: rest => rest
  | _ :: rest => dropComment rest

/-- Lower-casing of a tag or attribute name. -/
def lowerStr (s : String) : String := String.mk (s.data.map Char.toLower)

/-- Attribute scanning inside a start tag: whitespace-separated names with
optional quoted (double or single) or unquoted values; values have
character references decoded, names are lower-cased.  Returns the
attribute list and the characters after the closing angle bracket. -/
def parseAttrs : Nat → List Char → List (String × String) × List Char
  | 0, cs => ([], cs)
  | fuel + 1, cs =>
      let cs1 := (takeWhileList (fun c => c == ' ' || c == '\n' || c == '\t' || c == '/') cs).2
      match cs1 with
      | [] => ([], [])
      | '>' :: rest => ([], rest)
      | _ =>
          match takeWhileList isAttrNameChar cs1 with
          | ([], rest) => ([], dropThrough '>' rest)
          | (nm, cs2) =>
              match cs2 with
              | '=' :: q :: cs3 =>
                  if q = quoteChar || q = aposChar then
                    let v := takeWhileList (fun c => !(c == q)) cs3
                    let cs5 := match v.2 with | [] => [] | _ :: r => r
                    let r := parseAttrs fuel cs5
                    ((lowerStr (String.mk nm), String.mk (decodeEnt v.1)) :: r.1, r.2)
                  else
                    let v := takeWhileList (fun c => !(c == ' ') && !(c == '>')) (q :: cs3)
                    let r := parseAttrs fuel v.2
                    ((lowerStr (String.mk nm), String.mk (decodeEnt v.1)) :: r.1, r.2)
              | _ =>
                  let r := parseAttrs fuel cs2
                  ((lowerStr (String.mk nm), "") :: r.1, r.2)

/-- The HTML tokenizer: text runs between tags (with character references
decoded), start tags with attributes, end tags; comments and the doctype
are skipped.  Fuel-bounded; every step consumes at least one character, so
fuel equal to the input length suffices. -/
def tokenizeAux : Nat → List Char → List Tok
  | 0, _ => []
  | _ + 1, [] => []
  | fuel + 1, '<' :: '!' :: '-' :: '-' :: rest => tokenizeAux fuel (dropComment rest)
  | fuel + 1, '<' :: '!' :: rest => tokenizeAux fuel (dropThrough '>' rest)
  | fuel + 1, '<' :: '/' :: rest =>
      match takeWhileList isNameChar rest with
      | (nm, cs2) => Tok.tagClose (lowerStr (String.mk nm)) :: tokenizeAux fuel (dropThrough '>' cs2)
  | fuel + 1, '<' :: rest =>
      (match takeWhileList isNameChar rest with
       | ([], _) => Tok.chars (String.mk ['<']) :: tokenizeAux fuel rest
       | (nm, cs2) =>
           match parseAttrs (cs2.length + 1) cs2 with
           | (attrs, cs3) => Tok.tagOpen (lowerStr (String.mk nm)) attrs :: tokenizeAux fuel cs3)
  | fuel + 1, cs =>
      match takeWhileList (fun c => !(c == '<')) cs with
      | (txt, rest) => Tok.chars (String.mk (decodeEnt txt)) :: tokenizeAux fuel rest

/-- Tokenization of a whole document string. -/
def tokenizeHTML (s : String) : List Tok := tokenizeAux (s.data.length + 1) s.data

/-- An element still open on the tree-construction stack; children are
accumulated in reverse. -/
structure OpenElem where
  tag : String
  attrs : List (String × String)
  rchildren : List DomNode

/-- Tree-construction state: the stack of open elements (innermost first)
and the completed root nodes in reverse. -/
structure BuildState where
  stack : List OpenElem
  rroots : List DomNode

/-- Attach a finished node to the innermost open element, or to the root
list when the stack is empty. -/
def attachNode (n : DomNode) (st : BuildState) : BuildState :=
  match st.stack with
  | [] => { st with rroots := n :: st.rroots }
  | e :: rest => { st with stack := { e with rchildren := n :: e.rchildren } :: rest }

/-- Insert character data, merging with a directly preceding text node as
the HTML tree-construction stage does. -/
def attachText (s : String) (st : BuildState) : BuildState :=
  match st.stack with
  | [] =>
      match st.rroots with
      | DomNode.text t :: rs => { st with rroots := DomNode.text (t ++ s) :: rs }
      | _ => { st with rroots := DomNode.text s :: st.rroots }
  | e :: rest =>
      match e.rchildren with
      | DomNode.text t :: rc =>
          { st with stack := { e with rchildren := DomNode.text (t ++ s) :: rc } :: rest }
      | _ => { st with stack := { e with rchildren := DomNode.text s :: e.rchildren } :: rest }

/-- Close the innermost open element, attaching it one level up. -/
def closeTop (st : BuildState) : BuildState :=
  match st.stack with
  | [] => st
  | e :: rest =>
      attachNode (DomNode.elem e.tag e.attrs e.rchildren.reverse)
        { stack := rest, rroots := st.rroots }

/-- The tag of the innermost open element, if any. -/
def topTag (st : BuildState) : Option String :=
  match st.stack with
  | [] => none
  | e :: _ => some e.tag

/-- Repeatedly close the innermost element while its tag is among `tags`
(the generate-implied-end-tags step, restricted to the `p` and `dt`
elements this dialect leaves open). -/
def popImplied (tags : List String) : Nat → BuildState → BuildState
  | 0, st => st
  | fuel + 1, st =>
      match st.stack with
      | e :: _ => if tags.contains e.tag then popImplied tags fuel (closeTop st) else st
      | [] => st

/-- Elements inserted without being pushed (void elements). -/
def voidTags : List String := ["meta", "br", "hr", "img", "link", "input"]

/-- One step of tree construction: text insertion, start tags with the
auto-closing rules for open `dt` and `p` elements, and end tags with
implied end tags. -/
def handleTok (st : BuildState) (t : Tok) : BuildState :=
  match t with
  | Tok.chars s => attachText s st
  | Tok.tagClose tag =>
      let st1 := popImplied ["p", "dt"] st.stack.length st
      if topTag st1 = some tag then closeTop st1 else st1
  | Tok.tagOpen tag attrs =>
      if tag = "dt" then
        let st1 := popImplied ["p", "dt"] st.stack.length st
        { st1 with stack := ⟨tag, attrs, []⟩ :: st1.stack }
      else if tag = "dl" || tag = "h1" || tag = "h3" || tag = "p" then
        let st1 := popImplied ["p"] st.stack.length st
        { st1 with stack := ⟨tag, attrs, []⟩ :: st1.stack }
      else if voidTags.contains tag then
        attachNode (DomNode.elem tag attrs []) st
      else
        { st with stack := ⟨tag, attrs, []⟩ :: st.stack }

/-- Close every element still open at end of input. -/
def finishBuild : Nat → BuildState → List DomNode
  | 0, st => st.rroots.reverse
  | fuel + 1, st =>
      match st.stack with
      | [] => st.rroots.reverse
      | _ :: _ => finishBuild fuel (closeTop st)

/-- Tree construction over a token list. -/
def buildDoc (toks : List Tok) : List DomNode :=
  let st := toks.foldl handleTok ⟨[], []⟩
  finishBuild st.stack.length st

/-- Modelled from the spec: the `DOMParser().parseFromString(html,
'text/html')` step, as tokenization followed by tree construction. -/
def domParse (s : String) : List DomNode := buildDoc (tokenizeHTML s)

/-! ## DOM queries and `parseBookmarksHTML` -/

/-- Whether a node is an element with the given (lower-case) tag. -/
def isElemTag (tag : String) : DomNode → Bool
  | DomNode.elem t _ _ => t == tag
  | DomNode.text _ => false

/-- The child list of a node (text nodes have none). -/
def childrenOf : DomNode → List DomNode
  | DomNode.elem _ _ cs => cs
  | DomNode.text _ => []

/-- `querySelector(tag)`: the first element with the given tag in pre-order
document order, searching a forest.  Fuel-bounded. -/
def findFirstTag (tag : String) : Nat → List DomNode → Option DomNode
  | 0, _ => none
  | _ + 1, [] => none
  | fuel + 1, n :: rest =>
      if isElemTag tag n then some n
      else
        match findFirstTag tag fuel (childrenOf n) with
        | some d => some d
        | none => findFirstTag tag fuel rest

/-- `querySelectorAll(tag)`: every element with the given tag in pre-order
document order.  Fuel-bounded. -/
def collectTags (tag : String) : Nat → List DomNode → List DomNode
  | 0, _ => []
  | _ + 1, [] => []
  | fuel + 1, n :: rest =>
      (if isElemTag tag n then [n] else [])
        ++ collectTags tag fuel (childrenOf n)
        ++ collectTags tag fuel rest

/-- Concatenation of all text descendants of a forest, in document order. -/
def textNodesConcat : Nat → List DomNode → List Char
  | 0, _ => []
  | _ + 1, [] => []
  | fuel + 1, DomNode.text s :: rest => s.data ++ textNodesConcat fuel rest
  | fuel + 1, n :: rest => textNodesConcat fuel (childrenOf n) ++ textNodesConcat fuel rest

/-- `node.textContent`. -/
def textContent (fuel : Nat) (n : DomNode) : String :=
  match n with
  | DomNode.text s => s
  | DomNode.elem _ _ cs => String.mk (textNodesConcat fuel cs)

/-- `getAttribute`: first binding of the (lower-case) attribute name. -/
def getAttr (nm : String) (n : DomNode) : Option String :=
  match n with
  | DomNode.elem _ attrs _ => alookup nm attrs
  | DomNode.text _ => none

/-- State accumulated by `processNode`: bookmarks and folders in emission
order and the fresh-id counter. -/
structure ParseState where
  bookmarks : List Bookmark
  folders : List Folder
  counter : Nat
deriving DecidableEq

/-- The bookmark built for a link element inside a definition list
(`src/utils/bookmarkParser.ts` lines 38-45): empty text defaults the
title, a missing or empty `href` yields the empty url, and empty
`add_date`/`icon` attributes are dropped like missing ones.  `q` is query
fuel for `textContent`. -/
def mkParsedBookmark (q : Nat) (cnt : Nat) (folderId : Option String)
    (link : DomNode) : Bookmark :=
  { id := freshId cnt,
    title := jsOrStr (some (textContent q link)) "Untitled",
    url := jsOrStr (getAttr "href" link) "",
    addDate := jsOrUndef (getAttr "add_date" link),
    icon := jsOrUndef (getAttr "icon" link),
    tags := none,
    folder := folderId }

/-- The recursive `processNode` of `parseBookmarksHTML`
(`src/utils/bookmarkParser.ts` lines 34-64): within a definition list, the
links in direct term entries become bookmarks of the current folder
context, then each heading in a direct term entry becomes a folder and the
first definition list inside its term entry is recursed into.  `q` is a
fixed query fuel for the descendant searches; the recursion itself is
bounded by `fuel`, which the caller sets larger than the document depth. -/
def processNode (q : Nat) : Nat → DomNode → Option String → ParseState → ParseState
  | 0, _, _, st => st
  | fuel + 1, node, currentFolderId, st =>
      let dts := (childrenOf node).filter (isElemTag "dt")
      let links := dts.flatMap (fun dt => (childrenOf dt).filter (isElemTag "a"))
      let st1 := links.foldl (fun st link =>
          { st with
            bookmarks := st.bookmarks ++ [mkParsedBookmark q st.counter currentFolderId link],
            counter := st.counter + 1 }) st
      dts.foldl (fun st dt =>
        ((childrenOf dt).filter (isElemTag "h3")).foldl (fun st h3 =>
            let folderId := freshId st.counter
            let st2 := { st with
                folders := st.folders ++
                  [{ id := folderId,
                     name := jsOrStr (some (textContent q h3)) "New Folder",
                     parentId := currentFolderId }],
                counter := st.counter + 1 }
            match findFirstTag "dl" q (childrenOf dt) with
            | some dl => processNode q fuel dl (some folderId) st2
            | none => st2) st) st1

/-- The bookmark built by the no-definition-list fallback
(`src/utils/bookmarkParser.ts` lines 71-78): note that `add_date` and
`icon` are not copied on this path. -/
def mkFallbackBookmark (q : Nat) (cnt : Nat) (link : DomNode) : Bookmark :=
  { id := freshId cnt,
    title := jsOrStr (some (textContent q link)) "Untitled",
    url := jsOrStr (getAttr "href" link) "",
    folder := none }

/-- `parseBookmarksHTML` on an already-parsed document
(`src/utils/bookmarkParser.ts` lines 27-82): recurse into the first
definition list if one exists, otherwise fall back to a flat scan turning
every link in the document into a root-level bookmark with no folder.
`q` is the fuel bound for every traversal; `parseBookmarksHTML` sets it
beyond the document size. -/
def parseDoc (q : Nat) (doc : List DomNode) : BookmarkLibrary :=
  match findFirstTag "dl" q doc with
  | some rootDl =>
      let st := processNode q q rootDl none ⟨[], [], 0⟩
      { bookmarks := st.bookmarks, folders := st.folders }
  | none =>
      { bookmarks := ((collectTags "a" q doc).foldl
          (fun (acc : List Bookmark × Nat) link =>
            (acc.1 ++ [mkFallbackBookmark q acc.2 link], acc.2 + 1)) ([], 0)).1,
        folders := [] }

/-- `parseBookmarksHTML` from `src/utils/bookmarkParser.ts` lines 27-82.
The query fuel exceeds the node count of any document the tokenizer can
produce from the input. -/
def parseBookmarksHTML (html : String) : BookmarkLibrary :=
  parseDoc (2 * html.data.length + 2) (domParse html)

/-! ## Reachability of folders during serialization (for the
dangling-reference behaviour of `exportToHTML`) -/

/-- The ids of the folders visited by `renderItems` starting from the given
parent context: exactly the folders reachable from the root through
`parentId` links, in pre-order, with the same fuel bound as the
serializer. -/
def renderedIds (L : BookmarkLibrary) : Nat → Option String → List String
  | 0, _ => []
  | fuel + 1, parentId =>
      (L.folders.filter (fun f => f.parentId == parentId)).flatMap
        (fun f => f.id :: renderedIds L fuel (some f.id))

/-- The ids of all folders the serializer ever uses as a bookmark's parent
context below the root. -/
def reachableIds (L : BookmarkLibrary) : List String :=
  renderedIds L (L.folders.length + 1) none

/-! ## JavaScript heap model

The purity claim (operations return a new Library and never mutate the
input) is about the JavaScript heap, so the two state-updating operations
are additionally embedded at the level of an explicit heap of objects and
arrays.  `applySuggestion` copies the bookmark array (`[...bookmarks]`),
writes only into that copy, and replaces array slots with freshly spread
objects; the incremental `handleCommand` updater builds a new array with
`map`, spreading changed elements.  Neither writes to a pre-existing
address. -/

/-- A heap value: a bookmark object, a folder object, an array of
references, or a library object referencing its two arrays. -/
inductive JsVal where
  | bkObj (b : Bookmark)
  | fdObj (f : Folder)
  | arrObj (refs : List Nat)
  | libObj (bks fds : Nat)
deriving DecidableEq

/-- A heap: an address-to-value store and the next fresh address. -/
structure JsHeap where
  cells : List (Nat × JsVal)
  next : Nat
deriving DecidableEq

/-- Heap lookup. -/
def hlookup (a : Nat) : List (Nat × JsVal) → Option JsVal
  | [] => none
  | (k, v) :: rest => if k = a then some v else hlookup a rest

/-- Allocation of a fresh cell. -/
def halloc (h : JsHeap) (v : JsVal) : JsHeap × Nat :=
  ({ cells := h.cells ++ [(h.next, v)], next := h.next + 1 }, h.next)

/-- In-place update of the cell at address `a`. -/
def hset (a : Nat) (v : JsVal) : List (Nat × JsVal) → List (Nat × JsVal)
  | [] => []
  | (k, w) :: rest => if k = a then (k, v) :: rest else (k, w) :: hset a v rest

/-- A well-formed heap allocates only below its fresh-address bound. -/
def wfHeap (h : JsHeap) : Prop := ∀ p ∈ h.cells, p.1 < h.next

/-- Allocation of a list of values, returning their addresses in order. -/
def allocList : JsHeap → List JsVal → JsHeap × List Nat
  | h, [] => (h, [])
  | h, v :: vs =>
      let al := halloc h v
      let r := allocList al.1 vs
      (r.1, al.2 :: r.2)

/-- `findIndex(b => b.id === bid)` over an array of bookmark references. -/
def findIdxByIdAux (cells : List (Nat × JsVal)) (bid : String) :
    List Nat → Nat → Option Nat
  | [], _ => none
  | r :: rest, i =>
      match hlookup r cells with
      | some (JsVal.bkObj b) =>
          if b.id = bid then some i else findIdxByIdAux cells bid rest (i + 1)
      | _ => findIdxByIdAux cells bid rest (i + 1)

/-- One assignment of `applySuggestion` at the heap level: on a resolved
path, find the bookmark's slot in the copied array, allocate the spread
object with the new `folder`, and write the slot of the copied array
(`updatedBookmarks[index] = {...old, folder}`). -/
def applyAssignmentHeap (pathMap : List (String × String)) (arrRef : Nat)
    (h : JsHeap) (a : SuggestionAssignment) : JsHeap :=
  match alookup a.folderPath pathMap with
  | none => h
  | some fid =>
      match hlookup arrRef h.cells with
      | some (JsVal.arrObj refs) =>
          match findIdxByIdAux h.cells a.bookmarkId refs 0 with
          | none => h
          | some i =>
              match refs.get? i with
              | none => h
              | some oldRef =>
                  match hlookup oldRef h.cells with
                  | some (JsVal.bkObj b) =>
                      let al := halloc h (JsVal.bkObj { b with folder := some fid })
                      { al.1 with
                        cells := hset arrRef (JsVal.arrObj (refs.set i al.2)) al.1.cells }
                  | _ => h
      | _ => h

/-- `applySuggestion` at the heap level (App.tsx lines 151-206): copy the
bookmark array, allocate the synthesized folder objects and their array,
run the assignment loop against the copy, and allocate the new library
object.  Returns the new heap and the new library's address (or `none` on
an ill-typed input reference, which cannot occur for a well-formed
library). -/
def applySuggestionHeap (h : JsHeap) (libRef : Nat) (s : Suggestion) :
    JsHeap × Option Nat :=
  match hlookup libRef h.cells with
  | some (JsVal.libObj bksRef _fdsRef) =>
      match hlookup bksRef h.cells with
      | some (JsVal.arrObj refs) =>
          let al := halloc h (JsVal.arrObj refs)
          let st := resolveFolders initResolve s.folders
          let fl := allocList al.1 (st.newFolders.map JsVal.fdObj)
          let fa := halloc fl.1 (JsVal.arrObj fl.2)
          let h4 := s.assignments.foldl (applyAssignmentHeap st.pathMap al.2) fa.1
          let lo := halloc h4 (JsVal.libObj al.2 fa.2)
          (lo.1, some lo.2)
      | _ => (h, none)
  | _ => (h, none)

/-- The `map` of the incremental `MOVE_BOOKMARKS` updater at the heap
level: matched bookmarks get a fresh spread object, others keep their
reference. -/
def mapMoveRefs (ids : List String) (target : String) :
    JsHeap → List Nat → JsHeap × List Nat
  | h, [] => (h, [])
  | h, r :: rest =>
      match hlookup r h.cells with
      | some (JsVal.bkObj b) =>
          if ids.contains b.id then
            let al := halloc h (JsVal.bkObj { b with folder := some target })
            let rr := mapMoveRefs ids target al.1 rest
            (rr.1, al.2 :: rr.2)
          else
            let rr := mapMoveRefs ids target h rest
            (rr.1, r :: rr.2)
      | _ =>
          let rr := mapMoveRefs ids target h rest
          (rr.1, r :: rr.2)

/-- The incremental action updater of `handleCommand` (App.tsx
lines 88-107) at the heap level.  `nid` stands for the random id given to
a created folder.  A new bookmarks array (for moves) or folders array
(for creates) and a new library object are allocated; the previous library
and its arrays are untouched. -/
def applyActionHeap (h : JsHeap) (libRef : Nat) (nid : String) (a : BMAction) :
    JsHeap × Option Nat :=
  match hlookup libRef h.cells with
  | some (JsVal.libObj bksRef fdsRef) =>
      match a with
      | BMAction.moveBookmarks ids target =>
          match hlookup bksRef h.cells with
          | some (JsVal.arrObj refs) =>
              let mr := mapMoveRefs ids target h refs
              let na := halloc mr.1 (JsVal.arrObj mr.2)
              let lo := halloc na.1 (JsVal.libObj na.2 fdsRef)
              (lo.1, some lo.2)
          | _ => (h, none)
      | BMAction.createFolder name parentId =>
          match hlookup fdsRef h.cells with
          | some (JsVal.arrObj frefs) =>
              let fo := halloc h (JsVal.fdObj ⟨nid, name, parentId⟩)
              let na := halloc fo.1 (JsVal.arrObj (frefs ++ [fo.2]))
              let lo := halloc na.1 (JsVal.libObj bksRef na.2)
              (lo.1, some lo.2)
          | _ => (h, none)
  | _ => (h, none)

/-! ## Auxiliary predicates and example inputs used by the theorems -/

/-- All fields of the two bookmarks except `folder` agree. -/
def sameCore (b b2 : Bookmark) : Prop :=
  b.id = b2.id ∧ b.title = b2.title ∧ b.url = b2.url
    ∧ b.addDate = b2.addDate ∧ b.icon = b2.icon ∧ b.tags = b2.tags

/-- If the bookmark's id is not among `ids`, it is returned unchanged
(including its `folder` field). -/
def untouchedIf (ids : List String) (b b2 : Bookmark) : Prop :=
  b.id ∉ ids → b2 = b

/-- The accumulated prefix keys of a segment list, starting from `cur`. -/
def prefixListFrom (cur : String) : List String → List String
  | [] => []
  | part :: rest =>
      accKey cur part :: prefixListFrom (accKey cur part) rest

/-- The accumulated prefix keys of one proposal path. -/
def prefixStrings (path : String) : List String :=
  prefixListFrom "" (splitPath path)

/-- Append a key if it is not already present. -/
def dedupAppend (ks : List String) (k : String) : List String :=
  if k ∈ ks then ks else ks ++ [k]

/-- The distinct accumulated prefix keys of a proposal's paths, in first
occurrence order. -/
def distinctKeys (fs : List SuggestionFolder) : List String :=
  fs.foldl (fun ks f => (prefixStrings f.path).foldl dedupAppend ks) []

/-- The folder record synthesized for a resolved key `k` mapped to id `v`:
its `parentId` is absent when `k` was the first accumulated prefix of the
path that created it, and otherwise is exactly the id the map resolves for
the immediately shorter accumulated prefix `pk` (with `accKey pk name = k`;
`pk` is the empty string only on malformed paths with empty leading
segments, the sharp edge of spec section 4.3). -/
def folderForKey (st : ResolveState) (k v : String) : Prop :=
  ∃ f, f ∈ st.newFolders ∧ f.id = v ∧
    ((f.parentId = none ∧ k = f.name) ∨
     (∃ pk pv, f.parentId = some pv ∧ alookup pk st.pathMap = some pv ∧
        k = accKey pk f.name))

/-- Library holding the bookmark of testable property 2. -/
def c4lib : BookmarkLibrary :=
  ⟨[⟨"b1", "Tom & Jerry <test>", "http://example.com", none, none, none, none⟩], []⟩

/-- A host bookmark tree with a single folder `Other` and no `Dev`
folder. -/
def c5tree : BTreeNode :=
  BTreeNode.node "0" "" none [BTreeNode.node "40" "Other" none []]

/-- A host bookmark tree with two distinct folders both named `Dev`
(ids `10` and `20`, in that pre-order traversal order) and one plain
bookmark. -/
def c6tree : BTreeNode :=
  BTreeNode.node "0" "" none
    [BTreeNode.node "10" "Dev" none [],
     BTreeNode.node "20" "Dev" none [],
     BTreeNode.node "30" "B" (some "http://b.example") []]

/-- Heap frame relation: the second heap allocates at least as far and
agrees with the first heap on every address below `N`. -/
def framedBelow (N : Nat) (h h2 : JsHeap) : Prop :=
  h.next ≤ h2.next ∧
    ∀ a v, a < N → hlookup a h.cells = some v → hlookup a h2.cells = some v

/-! ## Canonical form of a library (for the round-trip claim)

Two libraries are "the same up to identifier renaming" when they have the
same folder hierarchy shape (same parent/child structure and names) and
the same bookmarks with the same enclosing folders.  This is captured by a
canonical form: the list of root-paths of folder names in the serializer's
pre-order, and the list of bookmarks (identifier-free fields) tagged with
the name-path of their enclosing folder, in the same pre-order. -/

/-- The identifier-free fields of a bookmark. -/
structure CBookmark where
  title : String
  url : String
  addDate : Option String
  icon : Option String
deriving DecidableEq

/-- Name-paths of the folders reachable from the given parent context, in
the serializer's pre-order. -/
def canonFolders (L : BookmarkLibrary) : Nat → Option String → List String → List (List String)
  | 0, _, _ => []
  | fuel + 1, p, path =>
      (L.folders.filter (fun f => f.parentId == p)).flatMap (fun f =>
        (path ++ [f.name]) :: canonFolders L fuel (some f.id) (path ++ [f.name]))

/-- Bookmarks below the given parent context tagged with the name-path of
their enclosing folder, in the serializer's pre-order. -/
def canonBookmarks (L : BookmarkLibrary) :
    Nat → Option String → List String → List (List String × CBookmark)
  | 0, _, _ => []
  | fuel + 1, p, path =>
      (L.bookmarks.filter (fun b => b.folder == p)).map
          (fun b => (path, ⟨b.title, b.url, b.addDate, b.icon⟩))
        ++ (L.folders.filter (fun f => f.parentId == p)).flatMap (fun f =>
            canonBookmarks L fuel (some f.id) (path ++ [f.name]))

/-- The canonical form of a library. -/
def canonical (L : BookmarkLibrary) : List (List String) × List (List String × CBookmark) :=
  (canonFolders L (L.folders.length + 1) none [],
   canonBookmarks L (L.folders.length + 1) none [])

/-- The number of bookmarks the serializer's traversal emits below the
given parent context. -/
def bmCountR (L : BookmarkLibrary) : Nat → Option String → Nat
  | 0, _ => 0
  | fuel + 1, p =>
      (L.bookmarks.filter (fun b => b.folder == p)).length
        + ((L.folders.filter (fun f => f.parentId == p)).map
            (fun f => bmCountR L fuel (some f.id))).sum

/-- No two sibling folders share a name. -/
def noDupSiblings (L : BookmarkLibrary) : Prop :=
  ∀ p ∈ L.folders.map Folder.parentId,
    ((L.folders.filter (fun f => f.parentId == p)).map Folder.name).Nodup

/-- The well-formedness hypotheses of the round-trip: the serializer's
root traversal reaches every folder exactly once and emits every bookmark
exactly once (so no dangling `folder` or `parentId` references and no
duplicated folder ids), folder names and bookmark titles are nonempty,
`addDate` and `icon` are never the empty string (the serializer drops
empty-string values like missing ones), and no two sibling folders share a
name. -/
def libOk (L : BookmarkLibrary) : Prop :=
  (reachableIds L).length = L.folders.length
  ∧ bmCountR L (L.folders.length + 1) none = L.bookmarks.length
  ∧ (∀ f ∈ L.folders, f.name ≠ "")
  ∧ (∀ b ∈ L.bookmarks, b.title ≠ "" ∧ b.addDate ≠ some "" ∧ b.icon ≠ some "")
  ∧ noDupSiblings L

/-! ## The level structure of a library (proof infrastructure for C1)

`FCtx` is the tree of levels the serializer's fuel-bounded recursion
actually visits: each node carries the folder records of the level's
direct child folders together with their own levels, and the bookmark
records filtered to the level. -/

inductive FCtx where
  | mk (subs : List (Folder × FCtx)) (bks : List Bookmark)

/-- The level tree visited below a parent context. -/
def ctxOf (L : BookmarkLibrary) : Nat → Option String → FCtx
  | 0, _ => FCtx.mk [] []
  | fuel + 1, p =>
      FCtx.mk
        ((L.folders.filter (fun f => f.parentId == p)).map
          (fun f => (f, ctxOf L fuel (some f.id))))
        (L.bookmarks.filter (fun b => b.folder == p))

/-- Nonempty names, nonempty titles and no empty-string optional
attributes, at every level of the tree. -/
inductive CtxOk : FCtx → Prop where
  | mk {subs : List (Folder × FCtx)} {bks : List Bookmark} :
      (∀ fs ∈ subs, fs.1.name ≠ "") →
      (∀ fs ∈ subs, CtxOk fs.2) →
      (∀ b ∈ bks, b.title ≠ "" ∧ b.addDate ≠ some "" ∧ b.icon ≠ some "") →
      CtxOk (FCtx.mk subs bks)

mutual
/-- Rendering of a level tree; agrees with `renderItems` on `ctxOf`. -/
def renderCtx : FCtx → Nat → String
  | FCtx.mk subs bks, ind =>
      renderSubs subs ind ++ String.join (bks.map (renderBookmark ind))
/-- Rendering of the folder units of a level. -/
def renderSubs : List (Folder × FCtx) → Nat → String
  | [], _ => ""
  | (f, sub) :: rest, ind =>
      renderFolderOpen ind f.name ++ renderCtx sub (ind + 4) ++ renderFolderClose ind
        ++ renderSubs rest ind
end

mutual
/-- Folder name-paths of a level tree; agrees with `canonFolders` on `ctxOf`. -/
def canonF : FCtx → List String → List (List String)
  | FCtx.mk subs _, path => canonFSubs subs path
def canonFSubs : List (Folder × FCtx) → List String → List (List String)
  | [], _ => []
  | (f, sub) :: rest, path =>
      (path ++ [f.name]) :: (canonF sub (path ++ [f.name]) ++ canonFSubs rest path)
end

mutual
/-- Path-tagged bookmarks of a level tree; agrees with `canonBookmarks` on
`ctxOf`. -/
def canonB : FCtx → List String → List (List String × CBookmark)
  | FCtx.mk subs bks, path =>
      bks.map (fun b => (path, ⟨b.title, b.url, b.addDate, b.icon⟩)) ++ canonBSubs subs path
def canonBSubs : List (Folder × FCtx) → List String → List (List String × CBookmark)
  | [], _ => []
  | (f, sub) :: rest, path => canonB sub (path ++ [f.name]) ++ canonBSubs rest path
end

mutual
/-- Folder ids of a level tree in pre-order; agrees with `renderedIds` on
`ctxOf`. -/
def ctxIds : FCtx → List String
  | FCtx.mk subs _ => ctxIdsSubs subs
def ctxIdsSubs : List (Folder × FCtx) → List String
  | [] => []
  | (f, sub) :: rest => f.id :: (ctxIds sub ++ ctxIdsSubs rest)
end

mutual
/-- Number of bookmarks in a level tree; agrees with `bmCountR` on `ctxOf`. -/
def ctxBmCount : FCtx → Nat
  | FCtx.mk subs bks => bks.length + ctxBmCountSubs subs
def ctxBmCountSubs : List (Folder × FCtx) → Nat
  | [] => 0
  | (_, sub) :: rest => ctxBmCount sub + ctxBmCountSubs rest
end

mutual
/-- Folder-nesting depth of a level tree. -/
def ctxDepth : FCtx → Nat
  | FCtx.mk subs _ => ctxDepthSubs subs
def ctxDepthSubs : List (Folder × FCtx) → Nat
  | [] => 0
  | (_, sub) :: rest => max (ctxDepth sub + 1) (ctxDepthSubs rest)
end

mutual
/-- Number of fresh ids `processNode` consumes on a level tree: one per
bookmark and one per folder. -/
def ctxSize : FCtx → Nat
  | FCtx.mk subs bks => bks.length + ctxSizeSubs subs
def ctxSizeSubs : List (Folder × FCtx) → Nat
  | [] => 0
  | (_, sub) :: rest => 1 + ctxSize sub + ctxSizeSubs rest
end

mutual
/-- Number of folders in a level tree. -/
def ctxFCount : FCtx → Nat
  | FCtx.mk subs _ => ctxFCountSubs subs
def ctxFCountSubs : List (Folder × FCtx) → Nat
  | [] => 0
  | (_, sub) :: rest => 1 + ctxFCount sub + ctxFCountSubs rest
end

/-! ## The parser's output on a serialized level tree -/

/-- The bookmark record `processNode` builds from a serialized bookmark:
fresh id, identifier-free fields copied, enclosing folder set to the
current context. -/
def bkRecord (cnt : Nat) (cur : Option String) (b : Bookmark) : Bookmark :=
  { id := freshId cnt, title := b.title, url := b.url, addDate := b.addDate,
    icon := b.icon, tags := none, folder := cur }

/-- The folder record `processNode` builds from a serialized folder. -/
def folderRecord (cnt : Nat) (cur : Option String) (f : Folder) : Folder :=
  { id := freshId cnt, name := f.name, parentId := cur }

mutual
/-- What `processNode` computes on the definition list serialized from a
level tree: first a bookmark per direct link, then each subfolder followed
by its own level. -/
def parseCtx : FCtx → Option String → ParseState → ParseState
  | FCtx.mk subs bks, cur, st =>
      parseSubs subs cur
        (bks.foldl (fun st b =>
          { st with bookmarks := st.bookmarks ++ [bkRecord st.counter cur b],
                    counter := st.counter + 1 }) st)
def parseSubs : List (Folder × FCtx) → Option String → ParseState → ParseState
  | [], _, st => st
  | (f, sub) :: rest, cur, st =>
      parseSubs rest cur
        (parseCtx sub (some (freshId st.counter))
          { st with folders := st.folders ++ [folderRecord st.counter cur f],
                    counter := st.counter + 1 })
end

/-- The bookmark records of one level, with consecutive counters. -/
def bksRecords : List Bookmark → Option String → Nat → List Bookmark
  | [], _, _ => []
  | b :: rest, cur, c0 => bkRecord c0 cur b :: bksRecords rest cur (c0 + 1)

mutual
/-- The folder list `parseCtx` appends, as an explicit flattening. -/
def flatF : FCtx → Option String → Nat → List Folder
  | FCtx.mk subs bks, cur, c0 => flatFSubs subs cur (c0 + bks.length)
def flatFSubs : List (Folder × FCtx) → Option String → Nat → List Folder
  | [], _, _ => []
  | (f, sub) :: rest, cur, c0 =>
      folderRecord c0 cur f
        :: (flatF sub (some (freshId c0)) (c0 + 1)
            ++ flatFSubs rest cur (c0 + 1 + ctxSize sub))
end

mutual
/-- The bookmark list `parseCtx` appends, as an explicit flattening. -/
def flatB : FCtx → Option String → Nat → List Bookmark
  | FCtx.mk subs bks, cur, c0 =>
      bksRecords bks cur c0 ++ flatBSubs subs cur (c0 + bks.length)
def flatBSubs : List (Folder × FCtx) → Option String → Nat → List Bookmark
  | [], _, _ => []
  | (_, sub) :: rest, cur, c0 =>
      flatB sub (some (freshId c0)) (c0 + 1) ++ flatBSubs rest cur (c0 + 1 + ctxSize sub)
end

/-- The attribute list the tokenizer recovers from a serialized bookmark's
link tag: names lower-cased, values decoded, empty-string optional
attributes omitted by the serializer. -/
def bmAttrs (b : Bookmark) : List (String × String) :=
  ("href", b.url)
    :: ((match b.addDate with
        | some d => if d = "" then [] else [("add_date", d)]
        | none => [])
      ++ (match b.icon with
        | some d => if d = "" then [] else [("icon", d)]
        | none => []))

/-- The link element the tree stage builds for a serialized bookmark. -/
def aNodeOf (b : Bookmark) : DomNode :=
  DomNode.elem "a" (bmAttrs b) [DomNode.text b.title]

/-- The heading element the tree stage builds for a serialized folder. -/
def h3NodeOf (nm : String) : DomNode := DomNode.elem "h3" [] [DomNode.text nm]

/-! ## Shape of the DOM recovered from a serialized level tree

The relations below describe the children of a definition-list element
precisely enough for `processNode`: the term entries, in order, are first
one per subfolder (a heading, then the folder's own definition list) and
then one per bookmark (a link), with interleaved whitespace remnants that
carry no link, heading or nested-list elements at the places the parser
queries. -/

/-- A term entry holding a serialized bookmark. -/
inductive BmDt : DomNode → Bookmark → Prop where
  | mk {trail : List DomNode} {b : Bookmark}
      (htrail : ∀ x ∈ trail, isElemTag "a" x = false ∧ isElemTag "h3" x = false) :
      BmDt (DomNode.elem "dt" [] (aNodeOf b :: trail)) b

/-- Term entries matching a list of serialized bookmarks, in order. -/
inductive BmDts : List DomNode → List Bookmark → Prop where
  | nil : BmDts [] []
  | cons {n : DomNode} {ns : List DomNode} {b : Bookmark} {bs : List Bookmark} :
      BmDt n b → BmDts ns bs → BmDts (n :: ns) (b :: bs)

mutual
/-- The children of a definition list match a level tree. -/
inductive DlMatch : List DomNode → FCtx → Prop where
  | mk {children fdts bdts : List DomNode} {subs : List (Folder × FCtx)}
      {bks : List Bookmark} :
      children.filter (isElemTag "dt") = fdts ++ bdts →
      FolderDts fdts subs →
      BmDts bdts bks →
      DlMatch children (FCtx.mk subs bks)
/-- Term entries matching the subfolders of a level, in order. -/
inductive FolderDts : List DomNode → List (Folder × FCtx) → Prop where
  | nil : FolderDts [] []
  | cons {n : DomNode} {ns : List DomNode} {f : Folder} {sub : FCtx}
      {rest : List (Folder × FCtx)} :
      FolderDt n f sub → FolderDts ns rest → FolderDts (n :: ns) ((f, sub) :: rest)
/-- A term entry holding a serialized folder: its heading, a whitespace
text remnant, its own definition list, and a trail free of links and
headings. -/
inductive FolderDt : DomNode → Folder → FCtx → Prop where
  | mk {t1 : String} {dlkids trail : List DomNode} {f : Folder} {sub : FCtx}
      (htrail : ∀ x ∈ trail, isElemTag "a" x = false ∧ isElemTag "h3" x = false) :
      DlMatch dlkids sub →
      FolderDt (DomNode.elem "dt" []
        ([h3NodeOf f.name, DomNode.text t1, DomNode.elem "dl" [] dlkids] ++ trail)) f sub
end

/-! ## Token streams of serialized markup -/

/-- Tokenization with the canonical sufficient fuel. -/
def tokStream (cs : List Char) : List Tok := tokenizeAux (cs.length + 1) cs

/-- A segment of marked-up text: a text run, a tag that tokenizes to a
single token, or a stretch the tokenizer skips. -/
inductive Seg where
  | textSeg (t : List Char)
  | tagSeg (s : List Char) (tok : Tok)
  | skipSeg (s : List Char)

/-- The character content of a segment list. -/
def concatSegs : List Seg → List Char
  | [] => []
  | Seg.textSeg t :: rest => t ++ concatSegs rest
  | Seg.tagSeg s _ :: rest => s ++ concatSegs rest
  | Seg.skipSeg s :: rest => s ++ concatSegs rest

/-- The token stream of a segment list: adjacent text runs merge into one
character token (decoded), tags contribute their single token, skipped
stretches nothing.  The accumulator holds the pending text run. -/
def segsToksAux : Option (List Char) → List Seg → List Tok
  | none, [] => []
  | some acc, [] => [Tok.chars (String.mk (decodeEnt acc))]
  | none, Seg.textSeg t :: rest => segsToksAux (some t) rest
  | some acc, Seg.textSeg t :: rest => segsToksAux (some (acc ++ t)) rest
  | none, Seg.tagSeg _ tok :: rest => tok :: segsToksAux none rest
  | some acc, Seg.tagSeg _ tok :: rest =>
      Tok.chars (String.mk (decodeEnt acc)) :: tok :: segsToksAux none rest
  | none, Seg.skipSeg _ :: rest => segsToksAux none rest
  | some acc, Seg.skipSeg _ :: rest =>
      Tok.chars (String.mk (decodeEnt acc)) :: segsToksAux none rest

/-- Well-formedness of a segment: a text run is nonempty and free of `<`;
a tag or skipped stretch starts with `<` and tokenizes to exactly its
token (resp. nothing) whatever follows. -/
def SegOk : Seg → Prop
  | Seg.textSeg t => t ≠ [] ∧ '<' ∉ t
  | Seg.tagSeg s tok =>
      (∃ s2, s = '<' :: s2) ∧ ∀ rest, tokStream (s ++ rest) = tok :: tokStream rest
  | Seg.skipSeg s =>
      (∃ s2, s = '<' :: s2) ∧ ∀ rest, tokStream (s ++ rest) = tokStream rest

/-- The literal tag segments of the serializer's markup. -/
def dtSeg : Seg := Seg.tagSeg "<DT>".data (Tok.tagOpen "dt" [])
def h3Seg : Seg := Seg.tagSeg "<H3>".data (Tok.tagOpen "h3" [])
def h3CloseSeg : Seg := Seg.tagSeg "</H3>".data (Tok.tagClose "h3")
def dlSeg : Seg := Seg.tagSeg "<DL>".data (Tok.tagOpen "dl" [])
def pSeg : Seg := Seg.tagSeg "<p>".data (Tok.tagOpen "p" [])
def dlCloseSeg : Seg := Seg.tagSeg "</DL>".data (Tok.tagClose "dl")
def aCloseSeg : Seg := Seg.tagSeg "</A>".data (Tok.tagClose "a")

/-- Rendered characters of a double-quoted attribute list. -/
def renderAttrsChars : List (List Char × List Char) → List Char
  | [] => []
  | (nm, v) :: rest =>
      ' ' :: (nm ++ '=' :: quoteChar :: (v ++ quoteChar :: renderAttrsChars rest))

/-- The name/escaped-value pairs of a serialized bookmark's attributes. -/
def bmPairs (b : Bookmark) : List (List Char × List Char) :=
  ("HREF".data, (escapeHtml b.url).data)
    :: ((match b.addDate with
        | some d => if d = "" then [] else [("ADD_DATE".data, (escapeHtml d).data)]
        | none => [])
      ++ (match b.icon with
        | some d => if d = "" then [] else [("ICON".data, (escapeHtml d).data)]
        | none => []))

/-- The characters of a serialized bookmark's link start tag. -/
def aTagChars (b : Bookmark) : List Char :=
  ("<A HREF=" ++ dq ++ escapeHtml b.url ++ dq ++ optAttr "ADD_DATE" b.addDate
    ++ optAttr "ICON" b.icon ++ ">").data

/-- The link start tag segment of a serialized bookmark. -/
def aSeg (b : Bookmark) : Seg := Seg.tagSeg (aTagChars b) (Tok.tagOpen "a" (bmAttrs b))

/-- The segments of one serialized bookmark. -/
def bookmarkSegs (b : Bookmark) (ind : Nat) : List Seg :=
  [Seg.textSeg (spaces ind).data, dtSeg, aSeg b,
   Seg.textSeg (escapeHtml b.title).data, aCloseSeg, Seg.textSeg ['\n']]

/-- The segments of the bookmarks of a level. -/
def segsBks : List Bookmark → Nat → List Seg
  | [], _ => []
  | b :: rest, ind => bookmarkSegs b ind ++ segsBks rest ind

mutual
/-- The segments of the body a level tree renders. -/
def segsCtx : FCtx → Nat → List Seg
  | FCtx.mk subs bks, ind => segsSubs subs ind ++ segsBks bks ind
/-- The segments of the folder units of a level. -/
def segsSubs : List (Folder × FCtx) → Nat → List Seg
  | [], _ => []
  | (f, sub) :: rest, ind =>
      [Seg.textSeg (spaces ind).data, dtSeg, h3Seg,
       Seg.textSeg (escapeHtml f.name).data, h3CloseSeg,
       Seg.textSeg ('\n' :: (spaces ind).data), dlSeg, pSeg, Seg.textSeg ['\n']]
        ++ (segsCtx sub (ind + 4)
          ++ ([Seg.textSeg (spaces ind).data, dlCloseSeg, pSeg, Seg.textSeg ['\n']]
            ++ segsSubs rest ind))
end

/-- The token stream of the bookmarks of a level, with the pending text
run threaded through; returns the tokens and the final pending run. -/
def bksToks : List Bookmark → Nat → List Char → List Tok × List Char
  | [], _, p0 => ([], p0)
  | b :: rest, ind, p0 =>
      let r := bksToks rest ind ['\n']
      (Tok.chars (String.mk (p0 ++ (spaces ind).data)) :: Tok.tagOpen "dt" []
        :: Tok.tagOpen "a" (bmAttrs b) :: Tok.chars b.title :: Tok.tagClose "a" :: r.1,
       r.2)

mutual
/-- The token stream of the body a level tree renders, given the pending
text run from before the level; returns the tokens and the final pending
run. -/
def ctxToks : FCtx → Nat → List Char → List Tok × List Char
  | FCtx.mk subs bks, ind, p0 =>
      let r := subsToks subs ind p0
      let r2 := bksToks bks ind r.2
      (r.1 ++ r2.1, r2.2)
/-- The token stream of the folder units of a level. -/
def subsToks : List (Folder × FCtx) → Nat → List Char → List Tok × List Char
  | [], _, p0 => ([], p0)
  | (f, sub) :: rest, ind, p0 =>
      let inner := ctxToks sub (ind + 4) ['\n']
      let r := subsToks rest ind ['\n']
      ([Tok.chars (String.mk (p0 ++ (spaces ind).data)), Tok.tagOpen "dt" [],
        Tok.tagOpen "h3" [], Tok.chars f.name, Tok.tagClose "h3",
        Tok.chars (String.mk ('\n' :: (spaces ind).data)), Tok.tagOpen "dl" [],
        Tok.tagOpen "p" []]
        ++ (inner.1
          ++ ([Tok.chars (String.mk (inner.2 ++ (spaces ind).data)), Tok.tagClose "dl",
               Tok.tagOpen "p" []]
            ++ r.1)),
       r.2)
end

/-! ## Tree construction over the serialized token stream -/

/-- Insert character data at the innermost open element of a stack,
merging with a directly preceding text node (the stack part of
`attachText`). -/
def attachTextJ (s : String) : List OpenElem → List OpenElem
  | [] => []
  | e :: rest =>
      match e.rchildren with
      | DomNode.text t :: rc => { e with rchildren := DomNode.text (t ++ s) :: rc } :: rest
      | _ => { e with rchildren := DomNode.text s :: e.rchildren } :: rest

/-- The single node a stack of open elements collapses to when its
elements are closed innermost-first into each other. -/
def collapseJ : List OpenElem → Option DomNode
  | [] => none
  | [e] => some (DomNode.elem e.tag e.attrs e.rchildren.reverse)
  | e :: e2 :: rest =>
      let n := DomNode.elem e.tag e.attrs e.rchildren.reverse
      collapseJ ({ e2 with rchildren := n :: e2.rchildren } :: rest)
termination_by l => l.length
decreasing_by simp [List.length_cons]

/-- Prepend an optional node. -/
def optCons : Option DomNode → List DomNode → List DomNode
  | none, l => l
  | some n, l => n :: l

/-- The freshly-opened paragraph element sitting above a definition list
at the start of a level. -/
def jInit : List OpenElem := [⟨"p", [], []⟩]

/-- The builder state a level's bookmark units leave behind: the open
elements above the current definition list, the list's accumulated
children (reversed) and the pending text run. -/
def levelBksOut : List Bookmark → Nat → List OpenElem → List DomNode → List Char →
    List OpenElem × List DomNode × List Char
  | [], _, J, dk, pend => (J, dk, pend)
  | b :: rest, ind, J, dk, pend =>
      levelBksOut rest ind
        [⟨"dt", [], [aNodeOf b]⟩]
        (optCons (collapseJ (attachTextJ (String.mk (pend ++ (spaces ind).data)) J)) dk)
        ['\n']

mutual
/-- The builder state a whole level leaves behind. -/
def levelOut : FCtx → Nat → List OpenElem → List DomNode → List Char →
    List OpenElem × List DomNode × List Char
  | FCtx.mk subs bks, ind, J, dk, pend =>
      let r := levelSubsOut subs ind J dk pend
      levelBksOut bks ind r.1 r.2.1 r.2.2
/-- The builder state a level's folder units leave behind. -/
def levelSubsOut : List (Folder × FCtx) → Nat → List OpenElem → List DomNode → List Char →
    List OpenElem × List DomNode × List Char
  | [], _, J, dk, pend => (J, dk, pend)
  | (f, sub) :: rest, ind, J, dk, pend =>
      let inner := levelOut sub (ind + 4) jInit [] ['\n']
      let dl2 := DomNode.elem "dl" []
        (optCons (collapseJ (attachTextJ
            (String.mk (inner.2.2 ++ (spaces ind).data)) inner.1)) inner.2.1).reverse
      levelSubsOut rest ind
        [⟨"p", [], []⟩,
         ⟨"dt", [], [dl2, DomNode.text (String.mk ('\n' :: (spaces ind).data)),
           h3NodeOf f.name]⟩]
        (optCons (collapseJ (attachTextJ (String.mk (pend ++ (spaces ind).data)) J)) dk)
        ['\n']
end

/-- The token stream of the serializer's fixed header, up to but not
including the newline after the root list's open tags. -/
def headerSegs : List Seg :=
  [Seg.skipSeg "<!DOCTYPE NETSCAPE-Bookmark-file-1>".data,
   Seg.textSeg ['\n'],
   Seg.skipSeg "<!-- This is an automatically generated file.\n     It will be read and overwritten.\n     DO NOT EDIT! -->".data,
   Seg.textSeg ['\n'],
   Seg.tagSeg "<META HTTP-EQUIV=\"Content-Type\" CONTENT=\"text/html; charset=UTF-8\">".data
     (Tok.tagOpen "meta" [("http-equiv", "Content-Type"), ("content", "text/html; charset=UTF-8")]),
   Seg.textSeg ['\n'],
   Seg.tagSeg "<TITLE>".data (Tok.tagOpen "title" []),
   Seg.textSeg "Bookmarks".data,
   Seg.tagSeg "</TITLE>".data (Tok.tagClose "title"),
   Seg.textSeg ['\n'],
   Seg.tagSeg "<H1>".data (Tok.tagOpen "h1" []),
   Seg.textSeg "Bookmarks".data,
   Seg.tagSeg "</H1>".data (Tok.tagClose "h1"),
   Seg.textSeg ['\n'],
   Seg.tagSeg "<DL>".data (Tok.tagOpen "dl" []),
   Seg.tagSeg "<p>".data (Tok.tagOpen "p" [])]

/-- The segments of a whole exported document. -/
def exportSegs (ctx : FCtx) : List Seg :=
  headerSegs ++ ([Seg.textSeg ['\n']] ++ (segsCtx ctx 4
    ++ [Seg.tagSeg "</DL>".data (Tok.tagClose "dl"), Seg.tagSeg "<p>".data (Tok.tagOpen "p" [])]))

/-- The tokens of the serializer's fixed header. -/
def headerToks : List Tok :=
  [Tok.chars "\n", Tok.chars "\n",
   Tok.tagOpen "meta" [("http-equiv", "Content-Type"), ("content", "text/html; charset=UTF-8")],
   Tok.chars "\n", Tok.tagOpen "title" [], Tok.chars "Bookmarks", Tok.tagClose "title",
   Tok.chars "\n", Tok.tagOpen "h1" [], Tok.chars "Bookmarks", Tok.tagClose "h1",
   Tok.chars "\n", Tok.tagOpen "dl" [], Tok.tagOpen "p" []]

/-- The full token stream of an exported document. -/
def exportToks (ctx : FCtx) : List Tok :=
  headerToks
    ++ ((ctxToks ctx 4 ['\n']).1
      ++ [Tok.chars (String.mk ((ctxToks ctx 4 ['\n']).2)), Tok.tagClose "dl",
          Tok.tagOpen "p" []])

/-- A concrete well-formed heap holding one library: a bookmark object at
0, the bookmarks array at 1, the folders array at 2, and the library
object at 3. -/
def c9heap : JsHeap :=
  ⟨[(0, JsVal.bkObj ⟨"b1", "T", "u", none, none, none, none⟩),
    (1, JsVal.arrObj [0]), (2, JsVal.arrObj []), (3, JsVal.libObj 1 2)], 4⟩

/-! # Theorems -/

/-! ### Tokenizer infrastructure for the round-trip claim -/

/-- The two halves of `takeWhileList` partition the input. -/
theorem takeWhileList_len (p : Char → Bool) : ∀ cs : List Char,
    (takeWhileList p cs).1.length + (takeWhileList p cs).2.length = cs.length := by
  intro cs
  induction cs with
  | nil => simp [takeWhileList]
  | cons c cs ih =>
      by_cases h : p c
      · simp only [takeWhileList, h, if_true, List.length_cons]
        omega
      · simp [takeWhileList, h]

/-- `dropThrough` never lengthens the input. -/
theorem dropThrough_le (stop : Char) : ∀ cs : List Char,
    (dropThrough stop cs).length ≤ cs.length := by
  intro cs; induction cs with
  | nil => simp [dropThrough]
  | cons c cs ih =>
      by_cases h : c = stop
      · simp [dropThrough, h]
      · simp only [dropThrough, h, if_false, List.length_cons]
        omega

/-- `dropComment` never lengthens the input. -/
theorem dropComment_le : ∀ cs : List Char, (dropComment cs).length ≤ cs.length := by
  intro cs
  induction cs using dropComment.induct with
  | case1 => simp [dropComment]
  | case2 rest => simp [dropComment]; omega
  | case3 c rest h ih =>
      rw [dropComment.eq_def]
      split <;> simp_all <;> omega

/-- The attribute scanner never lengthens the remaining input. -/
theorem parseAttrs_le : ∀ (fuel : Nat) (cs : List Char),
    ((parseAttrs fuel cs).2).length ≤ cs.length := by
  intro fuel cs
  induction fuel, cs using parseAttrs.induct with
  | case1 cs => simp [parseAttrs]
  | case2 fuel cs cs1 h =>
      unfold_let cs1 at h
      rw [parseAttrs]
      split <;> simp_all
  | case3 fuel cs cs1 rest h =>
      unfold_let cs1 at h
      have hws := takeWhileList_len (fun c => c == ' ' || c == '\n' || c == '\t' || c == '/') cs
      rw [parseAttrs]
      split <;> simp_all
      omega
  | case4 fuel cs cs1 rest heq h1 h2 =>
      unfold_let cs1 at heq
      have hws := takeWhileList_len (fun c => c == ' ' || c == '\n' || c == '\t' || c == '/') cs
      have hnm := takeWhileList_len isAttrNameChar
        (takeWhileList (fun c => c == ' ' || c == '\n' || c == '\t' || c == '/') cs).2
      have hdt := dropThrough_le '>' rest
      rw [parseAttrs]
      split <;> simp_all
      omega
  | case5 fuel cs cs1 nm hnm q cs3 hq v cs5 h1 h2 heq ih =>
      have hws := takeWhileList_len (fun c => c == ' ' || c == '\n' || c == '\t' || c == '/') cs
      have hnml := takeWhileList_len isAttrNameChar
        (takeWhileList (fun c => c == ' ' || c == '\n' || c == '\t' || c == '/') cs).2
      have hv := takeWhileList_len (fun c => !(c == q)) cs3
      unfold_let cs5 v at ih
      rw [parseAttrs]
      split <;> simp_all
      rcases hv2 : (takeWhileList (fun c => !(c == q)) cs3).2 with _ | ⟨hd, tl⟩
      · rw [hv2] at ih hv
        dsimp only at ih ⊢
        simp only [List.length_nil] at ih hv
        omega
      · rw [hv2] at ih hv
        dsimp only at ih ⊢
        simp only [List.length_cons] at hv
        omega
  | case6 fuel cs cs1 nm hnm q cs3 hq v h1 h2 heq ih =>
      have hws := takeWhileList_len (fun c => c == ' ' || c == '\n' || c == '\t' || c == '/') cs
      have hnml := takeWhileList_len isAttrNameChar
        (takeWhileList (fun c => c == ' ' || c == '\n' || c == '\t' || c == '/') cs).2
      have hv := takeWhileList_len (fun c => !(c == ' ') && !(c == '>')) (q :: cs3)
      unfold_let v at ih
      rw [parseAttrs]
      split <;> simp_all
      try simp only [List.length_cons] at hv
      omega
  | case7 fuel cs cs1 nm cs2 hnm heq h1 h2 hne ih =>
      have hws := takeWhileList_len (fun c => c == ' ' || c == '\n' || c == '\t' || c == '/') cs
      have hnml := takeWhileList_len isAttrNameChar
        (takeWhileList (fun c => c == ' ' || c == '\n' || c == '\t' || c == '/') cs).2
      rw [parseAttrs]
      split <;> simp_all
      omega

set_option maxHeartbeats 2000000 in
/-- Tokenizer dispatch: a comment. -/
theorem tokenizeAux_comment (n : Nat) (rest : List Char) :
    tokenizeAux (n + 1) ('<' :: '!' :: '-' :: '-' :: rest) = tokenizeAux n (dropComment rest) := rfl

set_option maxHeartbeats 2000000 in
/-- Tokenizer dispatch: an end tag. -/
theorem tokenizeAux_close (n : Nat) (rest : List Char) :
    tokenizeAux (n + 1) ('<' :: '/' :: rest)
      = Tok.tagClose (lowerStr (String.mk (takeWhileList isNameChar rest).1))
          :: tokenizeAux n (dropThrough '>' (takeWhileList isNameChar rest).2) := by
  rw [tokenizeAux.eq_def]
  split <;> try simp_all
  rename_i hbang hslash hfuel heq
  exact absurd heq.symm (hslash rest)

set_option maxHeartbeats 2000000 in
/-- Tokenizer dispatch: a doctype or other markup declaration. -/
theorem tokenizeAux_bang (n : Nat) (rest : List Char)
    (h : ∀ r2, rest = '-' :: '-' :: r2 → False) :
    tokenizeAux (n + 1) ('<' :: '!' :: rest) = tokenizeAux n (dropThrough '>' rest) := by
  rw [tokenizeAux.eq_def]
  split <;> try simp_all
  rename_i hbang hslash hfuel heq
  exact absurd heq.symm (hbang rest)

set_option maxHeartbeats 2000000 in
/-- Tokenizer dispatch: a text run. -/
theorem tokenizeAux_text (n : Nat) (cs : List Char)
    (h0 : cs = [] → False) (h1 : ∀ r2, cs = '<' :: r2 → False) :
    tokenizeAux (n + 1) cs
      = Tok.chars (String.mk (decodeEnt (takeWhileList (fun c => !(c == '<')) cs).1))
          :: tokenizeAux n (takeWhileList (fun c => !(c == '<')) cs).2 := by
  rw [tokenizeAux.eq_def]
  split <;> simp_all

set_option maxHeartbeats 2000000 in
/-- Tokenizer dispatch: a start tag or a stray angle bracket. -/
theorem tokenizeAux_open (n : Nat) (rest : List Char)
    (h1 : ∀ r2, rest = '!' :: r2 → False) (h2 : ∀ r2, rest = '/' :: r2 → False) :
    tokenizeAux (n + 1) ('<' :: rest)
      = (match takeWhileList isNameChar rest with
        | ([], _) => Tok.chars (String.mk ['<']) :: tokenizeAux n rest
        | (nm, cs2) =>
            Tok.tagOpen (lowerStr (String.mk nm)) (parseAttrs (cs2.length + 1) cs2).1
              :: tokenizeAux n (parseAttrs (cs2.length + 1) cs2).2) := by
  rw [tokenizeAux.eq_def]
  split <;> try simp_all

/-- `.1 = []` means nothing was consumed. -/
theorem takeWhileList_nil_eq (p : Char → Bool) (cs : List Char)
    (h : (takeWhileList p cs).1 = []) : (takeWhileList p cs).2 = cs := by
  cases cs with
  | nil => simp [takeWhileList]
  | cons c cs =>
      by_cases hp : p c
      · simp [takeWhileList, hp] at h
      · simp [takeWhileList, hp]

set_option maxHeartbeats 1000000 in
/-- Tokenization does not depend on the fuel once it exceeds the input
length. -/
theorem tokenizeAux_ge : ∀ (fuel : Nat) (cs : List Char) (fuel2 : Nat),
    cs.length < fuel → cs.length < fuel2 → tokenizeAux fuel cs = tokenizeAux fuel2 cs := by
  intro fuel cs
  induction fuel, cs using tokenizeAux.induct with
  | case1 cs => intro fuel2 h1 h2; omega
  | case2 n =>
      intro fuel2 h1 h2
      obtain ⟨m, rfl⟩ : ∃ m, fuel2 = m + 1 := ⟨fuel2 - 1, by omega⟩
      rfl
  | case3 fuel rest ih =>
      intro fuel2 h1 h2
      obtain ⟨m, rfl⟩ : ∃ m, fuel2 = m + 1 := ⟨fuel2 - 1, by omega⟩
      rw [tokenizeAux_comment, tokenizeAux_comment]
      have hd := dropComment_le rest
      exact ih m (by simp_all [List.length_cons]; omega) (by simp_all [List.length_cons]; omega)
  | case4 fuel rest hno ih =>
      intro fuel2 h1 h2
      obtain ⟨m, rfl⟩ : ∃ m, fuel2 = m + 1 := ⟨fuel2 - 1, by omega⟩
      rw [tokenizeAux_bang fuel rest hno, tokenizeAux_bang m rest hno]
      have hd := dropThrough_le '>' rest
      exact ih m (by simp_all [List.length_cons]; omega) (by simp_all [List.length_cons]; omega)
  | case5 fuel rest pre post heq ih =>
      intro fuel2 h1 h2
      obtain ⟨m, rfl⟩ : ∃ m, fuel2 = m + 1 := ⟨fuel2 - 1, by omega⟩
      rw [tokenizeAux_close, tokenizeAux_close]
      have hd := dropThrough_le '>' (takeWhileList isNameChar rest).2
      have hl := takeWhileList_len isNameChar rest
      have h3 := ih m (by simp_all [List.length_cons, heq]; omega)
        (by simp_all [List.length_cons, heq]; omega)
      rw [heq] at hd hl ⊢
      dsimp only at hd hl ⊢
      rw [h3]
  | case6 fuel rest hbc hb hs rest1 heq ih =>
      intro fuel2 h1 h2
      obtain ⟨m, rfl⟩ : ∃ m, fuel2 = m + 1 := ⟨fuel2 - 1, by omega⟩
      rw [tokenizeAux_open fuel rest hb hs, tokenizeAux_open m rest hb hs, heq]
      have h3 := ih m (by simp only [List.length_cons] at h1; omega)
        (by simp only [List.length_cons] at h2; omega)
      simp only [h3]
  | case7 fuel rest hbc hb hs nm cs2 hnm heq attrs cs3 heqa ih =>
      intro fuel2 h1 h2
      obtain ⟨m, rfl⟩ : ∃ m, fuel2 = m + 1 := ⟨fuel2 - 1, by omega⟩
      rw [tokenizeAux_open fuel rest hb hs, tokenizeAux_open m rest hb hs]
      obtain ⟨c, nm2, rfl⟩ := List.exists_cons_of_ne_nil (fun hh => hnm hh)
      have hl := takeWhileList_len isNameChar rest
      have hp := parseAttrs_le (cs2.length + 1) cs2
      have h3 := ih m
        (by rw [heq] at hl
            rw [heqa] at hp
            dsimp only at hl hp
            simp only [List.length_cons] at hl h1
            omega)
        (by rw [heq] at hl
            rw [heqa] at hp
            dsimp only at hl hp
            simp only [List.length_cons] at hl h2
            omega)
      rw [heq]
      dsimp only
      rw [heqa]
      dsimp only
      rw [h3]
  | case8 fuel cs h0 hc1 hc2 hc3 hlt pre post heq ih =>
      intro fuel2 h1 h2
      obtain ⟨m, rfl⟩ : ∃ m, fuel2 = m + 1 := ⟨fuel2 - 1, by omega⟩
      rw [tokenizeAux_text fuel cs h0 hlt, tokenizeAux_text m cs h0 hlt, heq]
      have hl := takeWhileList_len (fun c => !(c == '<')) cs
      have hpre : pre ≠ [] := by
        intro hh
        cases cs with
        | nil => exact h0 rfl
        | cons c cs2 =>
            have hcne : c ≠ '<' := fun e => hlt cs2 (by rw [e])
            have hc : (c == '<') = false := beq_eq_false_iff_ne.mpr hcne
            have h5 := congrArg Prod.fst heq
            simp [takeWhileList, hc, hh] at h5
      have h3 := ih m
        (by rw [heq] at hl
            dsimp only at hl
            cases pre with
            | nil => exact absurd rfl hpre
            | cons a b => simp only [List.length_cons] at hl; omega)
        (by rw [heq] at hl
            dsimp only at hl
            cases pre with
            | nil => exact absurd rfl hpre
            | cons a b => simp only [List.length_cons] at hl; omega)
      dsimp only
      rw [h3]


/-! ## Escaping (C4) -/

theorem mem_escChar_data {c x : Char} (hx : x ∈ (escChar c).data) :
    x ≠ '<' ∧ x ≠ '>' ∧ x ≠ quoteChar ∧ x ≠ aposChar := by
  unfold escChar at hx
  split_ifs at hx with h1 h2 h3 h4 h5
  · rw [show ("&amp;" : String).data = ['&', 'a', 'm', 'p', ';'] from rfl] at hx
    fin_cases hx <;> exact ⟨by decide, by decide, by decide, by decide⟩
  · rw [show ("&lt;" : String).data = ['&', 'l', 't', ';'] from rfl] at hx
    fin_cases hx <;> exact ⟨by decide, by decide, by decide, by decide⟩
  · rw [show ("&gt;" : String).data = ['&', 'g', 't', ';'] from rfl] at hx
    fin_cases hx <;> exact ⟨by decide, by decide, by decide, by decide⟩
  · rw [show ("&quot;" : String).data = ['&', 'q', 'u', 'o', 't', ';'] from rfl] at hx
    fin_cases hx <;> exact ⟨by decide, by decide, by decide, by decide⟩
  · rw [show ("&#039;" : String).data = ['&', '#', '0', '3', '9', ';'] from rfl] at hx
    fin_cases hx <;> exact ⟨by decide, by decide, by decide, by decide⟩
  · simp only [String.mk] at hx
    rcases List.mem_singleton.mp hx with rfl
    exact ⟨h2, h3, h4, h5⟩

theorem mem_escapeData {l : List Char} {x : Char} (hx : x ∈ escapeData l) :
    x ≠ '<' ∧ x ≠ '>' ∧ x ≠ quoteChar ∧ x ≠ aposChar := by
  induction l with
  | nil => simp [escapeData] at hx
  | cons c cs ih =>
    rw [escapeData] at hx
    rcases List.mem_append.mp hx with h | h
    · exact mem_escChar_data h
    · exact ih h

set_option maxHeartbeats 2000000 in
theorem decodeEnt_cons_ne (c : Char) (rest : List Char) (h : c ≠ '&') :
    decodeEnt (c :: rest) = c :: decodeEnt rest := by
  rw [decodeEnt.eq_def]
  split <;> simp_all

set_option maxHeartbeats 2000000 in
theorem decodeEnt_escapeData (l : List Char) : decodeEnt (escapeData l) = l := by
  induction l with
  | nil => rfl
  | cons c cs ih =>
    rw [escapeData]
    by_cases h1 : c = '&'
    · subst h1
      rw [show escChar '&' = "&amp;" from rfl,
          show ("&amp;" : String).data = ['&', 'a', 'm', 'p', ';'] from rfl]
      simp only [List.cons_append, List.nil_append]
      rw [decodeEnt, ih]
    · by_cases h2 : c = '<'
      · subst h2
        rw [show escChar '<' = "&lt;" from rfl,
            show ("&lt;" : String).data = ['&', 'l', 't', ';'] from rfl]
        simp only [List.cons_append, List.nil_append]
        rw [decodeEnt, ih]
      · by_cases h3 : c = '>'
        · subst h3
          rw [show escChar '>' = "&gt;" from rfl,
              show ("&gt;" : String).data = ['&', 'g', 't', ';'] from rfl]
          simp only [List.cons_append, List.nil_append]
          rw [decodeEnt, ih]
        · by_cases h4 : c = quoteChar
          · subst h4
            rw [show escChar quoteChar = "&quot;" from rfl,
                show ("&quot;" : String).data = ['&', 'q', 'u', 'o', 't', ';'] from rfl]
            simp only [List.cons_append, List.nil_append]
            rw [decodeEnt, ih]
          · by_cases h5 : c = aposChar
            · subst h5
              rw [show escChar aposChar = "&#039;" from rfl,
                  show ("&#039;" : String).data = ['&', '#', '0', '3', '9', ';'] from rfl]
              simp only [List.cons_append, List.nil_append]
              rw [decodeEnt, ih]
            · rw [show escChar c = String.mk [c] from by
                    unfold escChar; simp [h1, h2, h3, h4, h5]]
              simp only [String.mk, List.cons_append, List.nil_append]
              rw [decodeEnt_cons_ne c _ h1, ih]


/-- Decoding leaves ampersand-free text unchanged. -/
theorem decodeEnt_no_amp {t : List Char} (h : '&' ∉ t) : decodeEnt t = t := by
  induction t with
  | nil => rfl
  | cons c cs ih =>
      rw [decodeEnt_cons_ne c cs (fun e => h (e ▸ List.mem_cons_self c cs))]
      rw [ih (fun m => h (List.mem_cons_of_mem c m))]

/-- A single-character escape is never empty. -/
theorem escChar_ne_nil (c : Char) : (escChar c).data ≠ [] := by
  unfold escChar; split_ifs <;> simp

/-- Escaping a nonempty string is nonempty. -/
theorem escapeData_ne_nil {l : List Char} (h : l ≠ []) : escapeData l ≠ [] := by
  cases l with
  | nil => exact absurd rfl h
  | cons c cs =>
      rw [escapeData]
      intro he
      exact escChar_ne_nil c (List.append_eq_nil.mp he).1

/-- `takeWhileList` splits a concatenation at the predicate boundary. -/
theorem takeWhileList_split (p : Char → Bool) : ∀ (t rest : List Char),
    (∀ c ∈ t, p c = true) →
    (match rest with | [] => True | c :: _ => p c = false) →
    takeWhileList p (t ++ rest) = (t, rest) := by
  intro t
  induction t with
  | nil =>
      intro rest h1 h2
      cases rest with
      | nil => simp [takeWhileList]
      | cons c cs =>
          simp only [List.nil_append, takeWhileList]
          simp only at h2
          simp [h2]
  | cons c t ih =>
      intro rest h1 h2
      have hc : p c = true := h1 c (List.mem_cons_self c t)
      simp only [List.cons_append, takeWhileList, hc, if_true, List.append_eq]
      rw [ih rest (fun x hx => h1 x (List.mem_cons_of_mem _ hx)) h2]

/-- A name character is not a dispatch character. -/
theorem nameChar_facts (c : Char) (h : isNameChar c = true) :
    c ≠ '!' ∧ c ≠ '/' ∧ c ≠ '<' ∧ c ≠ '>' := by
  refine ⟨?_, ?_, ?_, ?_⟩ <;> intro e <;> subst e <;> simp [isNameChar] at h

/-- The empty stream. -/
theorem tokStream_nil : tokStream [] = [] := rfl

/-- A nonempty `<`-free text run before a tag (or the end of input)
tokenizes to one character token. -/
theorem tokStream_text (t rest : List Char) (ht : t ≠ []) (hlt : '<' ∉ t)
    (hrest : rest = [] ∨ ∃ r2, rest = '<' :: r2) :
    tokStream (t ++ rest) = Tok.chars (String.mk (decodeEnt t)) :: tokStream rest := by
  unfold tokStream
  rw [tokenizeAux_text ((t ++ rest).length) (t ++ rest)
      (fun he => ht (List.append_eq_nil.mp he).1)
      (by
        intro r2 hh
        cases t with
        | nil => exact ht rfl
        | cons a t2 =>
            rw [List.cons_append] at hh
            injection hh with e1 e2
            exact hlt (e1 ▸ List.mem_cons_self a t2))]
  rw [takeWhileList_split (fun c => !(c == '<')) t rest
      (fun c hc => by
        have : c ≠ '<' := fun e => hlt (e ▸ hc)
        simp [this])
      (by
        rcases hrest with rfl | ⟨r2, rfl⟩
        · trivial
        · simp)]
  have hge : tokenizeAux (t ++ rest).length rest = tokenizeAux (rest.length + 1) rest := by
    apply tokenizeAux_ge
    · rw [List.length_append]
      cases t with
      | nil => exact absurd rfl ht
      | cons a t2 => simp only [List.length_cons]; omega
    · omega
  rw [hge]

/-- `parseAttrs` at a closing angle bracket. -/
theorem parseAttrs_gt (n : Nat) (rest : List Char) :
    parseAttrs (n + 1) ('>' :: rest) = ([], rest) := by
  rw [parseAttrs]
  rw [show takeWhileList (fun c => c == ' ' || c == '\n' || c == '\t' || c == '/') ('>' :: rest)
      = ([], '>' :: rest) from by simp [takeWhileList]]
  rfl

/-- A bare named start tag tokenizes to one token. -/
theorem tokStream_openTag (nmU : List Char) (rest : List Char)
    (h0 : nmU ≠ []) (h1 : ∀ c ∈ nmU, isNameChar c = true) :
    tokStream ('<' :: (nmU ++ '>' :: rest))
      = Tok.tagOpen (lowerStr (String.mk nmU)) [] :: tokStream rest := by
  show tokenizeAux ((nmU ++ '>' :: rest).length + 1 + 1) ('<' :: (nmU ++ '>' :: rest)) = _
  rw [tokenizeAux_open ((nmU ++ '>' :: rest).length + 1) (nmU ++ '>' :: rest)
      (by
        intro r2 hh
        cases nmU with
        | nil => exact h0 rfl
        | cons a t2 =>
            rw [List.cons_append] at hh
            injection hh with e1 e2
            exact (nameChar_facts a (h1 a (List.mem_cons_self a t2))).1 e1)
      (by
        intro r2 hh
        cases nmU with
        | nil => exact h0 rfl
        | cons a t2 =>
            rw [List.cons_append] at hh
            injection hh with e1 e2
            exact (nameChar_facts a (h1 a (List.mem_cons_self a t2))).2.1 e1)]
  rw [takeWhileList_split isNameChar nmU ('>' :: rest) h1 (by simp [isNameChar])]
  cases nmU with
  | nil => exact absurd rfl h0
  | cons a t2 =>
      dsimp only
      rw [parseAttrs_gt]
      dsimp only
      have hge : tokenizeAux ((a :: t2 ++ '>' :: rest).length + 1) rest
          = tokenizeAux (rest.length + 1) rest := by
        apply tokenizeAux_ge
        · simp only [List.length_append, List.length_cons]
          omega
        · omega
      rw [hge]
      rfl

/-- A named end tag tokenizes to one token. -/
theorem tokStream_closeTag (nmU : List Char) (rest : List Char)
    (h1 : ∀ c ∈ nmU, isNameChar c = true) :
    tokStream ('<' :: '/' :: (nmU ++ '>' :: rest))
      = Tok.tagClose (lowerStr (String.mk nmU)) :: tokStream rest := by
  show tokenizeAux ((nmU ++ '>' :: rest).length + 2 + 1) ('<' :: '/' :: (nmU ++ '>' :: rest)) = _
  rw [tokenizeAux_close]
  rw [takeWhileList_split isNameChar nmU ('>' :: rest) h1 (by simp [isNameChar])]
  dsimp only
  rw [show dropThrough '>' ('>' :: rest) = rest from by simp [dropThrough]]
  have hge : tokenizeAux ((nmU ++ '>' :: rest).length + 2) rest
      = tokenizeAux (rest.length + 1) rest := by
    apply tokenizeAux_ge
    · simp only [List.length_append, List.length_cons]
      omega
    · omega
  rw [hge]
  rfl

/-- The token stream of a well-formed segment list, with a pending text
run. -/
theorem segsToks_spec : ∀ (segs : List Seg) (acc : Option (List Char)),
    (∀ sg ∈ segs, SegOk sg) →
    (match acc with | none => True | some a => a ≠ [] ∧ '<' ∉ a) →
    tokStream ((match acc with | none => ([] : List Char) | some a => a) ++ concatSegs segs)
      = segsToksAux acc segs := by
  intro segs
  induction segs with
  | nil =>
      intro acc hok hacc
      match acc with
      | none => rfl
      | some a =>
          show tokStream (a ++ concatSegs []) = _
          rw [show concatSegs [] = [] from rfl, List.append_nil]
          rw [show segsToksAux (some a) [] = [Tok.chars (String.mk (decodeEnt a))] from rfl]
          have h2 := tokStream_text a [] hacc.1 hacc.2 (Or.inl rfl)
          rw [List.append_nil] at h2
          rw [h2]
          rfl
  | cons sg rest ih =>
      intro acc hok hacc
      have hoks : ∀ s2 ∈ rest, SegOk s2 := fun s2 h2 => hok s2 (List.mem_cons_of_mem sg h2)
      have hsg : SegOk sg := hok sg (List.mem_cons_self sg rest)
      have ihn : tokStream (concatSegs rest) = segsToksAux none rest := by
        have h3 := ih none hoks trivial
        dsimp only at h3
        rwa [List.nil_append] at h3
      match sg, acc with
      | Seg.textSeg t, none =>
          show tokStream ([] ++ concatSegs (Seg.textSeg t :: rest)) = _
          rw [show concatSegs (Seg.textSeg t :: rest) = t ++ concatSegs rest from rfl,
              List.nil_append,
              show segsToksAux none (Seg.textSeg t :: rest) = segsToksAux (some t) rest from rfl]
          have h3 := ih (some t) hoks ⟨hsg.1, hsg.2⟩
          dsimp only at h3
          exact h3
      | Seg.textSeg t, some a =>
          show tokStream (a ++ concatSegs (Seg.textSeg t :: rest)) = _
          rw [show concatSegs (Seg.textSeg t :: rest) = t ++ concatSegs rest from rfl,
              show segsToksAux (some a) (Seg.textSeg t :: rest)
                = segsToksAux (some (a ++ t)) rest from rfl,
              show a ++ (t ++ concatSegs rest) = (a ++ t) ++ concatSegs rest from by simp]
          have h3 := ih (some (a ++ t)) hoks ⟨fun hh => hacc.1 (List.append_eq_nil.mp hh).1,
            fun hh => (List.mem_append.mp hh).elim (fun h => hacc.2 h) (fun h => hsg.2 h)⟩
          dsimp only at h3
          exact h3
      | Seg.tagSeg s tok, none =>
          show tokStream ([] ++ concatSegs (Seg.tagSeg s tok :: rest)) = _
          rw [show concatSegs (Seg.tagSeg s tok :: rest) = s ++ concatSegs rest from rfl,
              List.nil_append,
              show segsToksAux none (Seg.tagSeg s tok :: rest)
                = tok :: segsToksAux none rest from rfl]
          rw [hsg.2 (concatSegs rest), ihn]
      | Seg.tagSeg s tok, some a =>
          show tokStream (a ++ concatSegs (Seg.tagSeg s tok :: rest)) = _
          rw [show concatSegs (Seg.tagSeg s tok :: rest) = s ++ concatSegs rest from rfl,
              show segsToksAux (some a) (Seg.tagSeg s tok :: rest)
                = Tok.chars (String.mk (decodeEnt a)) :: tok :: segsToksAux none rest from rfl]
          obtain ⟨s2, rfl⟩ := hsg.1
          rw [show a ++ ('<' :: s2 ++ concatSegs rest) = a ++ (('<' :: s2) ++ concatSegs rest)
            from by simp]
          rw [tokStream_text a (('<' :: s2) ++ concatSegs rest) hacc.1 hacc.2
            (Or.inr ⟨s2 ++ concatSegs rest, by simp⟩)]
          rw [show ('<' :: s2) ++ concatSegs rest = '<' :: s2 ++ concatSegs rest from by simp]
          rw [hsg.2 (concatSegs rest), ihn]
      | Seg.skipSeg s, none =>
          show tokStream ([] ++ concatSegs (Seg.skipSeg s :: rest)) = _
          rw [show concatSegs (Seg.skipSeg s :: rest) = s ++ concatSegs rest from rfl,
              List.nil_append,
              show segsToksAux none (Seg.skipSeg s :: rest) = segsToksAux none rest from rfl]
          rw [hsg.2 (concatSegs rest), ihn]
      | Seg.skipSeg s, some a =>
          show tokStream (a ++ concatSegs (Seg.skipSeg s :: rest)) = _
          rw [show concatSegs (Seg.skipSeg s :: rest) = s ++ concatSegs rest from rfl,
              show segsToksAux (some a) (Seg.skipSeg s :: rest)
                = Tok.chars (String.mk (decodeEnt a)) :: segsToksAux none rest from rfl]
          obtain ⟨s2, rfl⟩ := hsg.1
          rw [show a ++ ('<' :: s2 ++ concatSegs rest) = a ++ (('<' :: s2) ++ concatSegs rest)
            from by simp]
          rw [tokStream_text a (('<' :: s2) ++ concatSegs rest) hacc.1 hacc.2
            (Or.inr ⟨s2 ++ concatSegs rest, by simp⟩)]
          rw [show ('<' :: s2) ++ concatSegs rest = '<' :: s2 ++ concatSegs rest from by simp]
          rw [hsg.2 (concatSegs rest), ihn]


/-- An attribute-name character is not whitespace, a slash, an equals sign
or an angle bracket. -/
theorem attrNameChar_facts (c : Char) (h : isAttrNameChar c = true) :
    (c == ' ' || c == '\n' || c == '\t' || c == '/') = false ∧ c ≠ '>' ∧ c ≠ '=' := by
  refine ⟨?_, ?_, ?_⟩
  · cases e1 : c == ' ' <;> cases e2 : c == '\n' <;> cases e3 : c == '\t' <;>
      cases e4 : c == '/' <;> simp_all <;>
      first
        | (subst e1; simp [isAttrNameChar] at h)
        | (subst e2; simp [isAttrNameChar] at h)
        | (subst e3; simp [isAttrNameChar] at h)
        | (subst e4; simp [isAttrNameChar] at h)
  · intro e; subst e; simp [isAttrNameChar] at h
  · intro e; subst e; simp [isAttrNameChar] at h

/-- Each rendered attribute is at least one character. -/
theorem renderAttrs_len_ge : ∀ ps : List (List Char × List Char),
    ps.length ≤ (renderAttrsChars ps).length := by
  intro ps
  induction ps with
  | nil => simp [renderAttrsChars]
  | cons pa ps ih =>
      match pa with
      | (nm, v) =>
          simp only [renderAttrsChars, List.length_cons, List.length_append]
          omega

set_option maxHeartbeats 2000000 in
/-- The attribute scanner recovers a rendered double-quoted attribute
list: names are lower-cased and values decoded. -/
theorem parseAttrs_render : ∀ (ps : List (List Char × List Char)) (fuel : Nat)
    (rest : List Char),
    ps.length < fuel →
    (∀ pa ∈ ps, pa.1 ≠ [] ∧ (∀ c ∈ pa.1, isAttrNameChar c = true) ∧ quoteChar ∉ pa.2) →
    parseAttrs fuel (renderAttrsChars ps ++ '>' :: rest)
      = (ps.map (fun pa => (lowerStr (String.mk pa.1), String.mk (decodeEnt pa.2))), rest) := by
  intro ps
  induction ps with
  | nil =>
      intro fuel rest hf hok
      obtain ⟨m, rfl⟩ : ∃ m, fuel = m + 1 := ⟨fuel - 1, by omega⟩
      rw [show renderAttrsChars [] = [] from rfl, List.nil_append, parseAttrs_gt]
      rfl
  | cons pa ps ih =>
      intro fuel rest hf hok
      obtain ⟨m, rfl⟩ : ∃ m, fuel = m + 1 := ⟨fuel - 1, by omega⟩
      obtain ⟨nm, v⟩ := pa
      have hpa := hok (nm, v) (List.mem_cons_self _ _)
      obtain ⟨a, nm2, rfl⟩ := List.exists_cons_of_ne_nil hpa.1
      have ha : isAttrNameChar a = true := hpa.2.1 a (List.mem_cons_self a nm2)
      have hrw : renderAttrsChars ((a :: nm2, v) :: ps) ++ '>' :: rest
          = ' ' :: ((a :: nm2) ++ '=' :: quoteChar
              :: (v ++ quoteChar :: (renderAttrsChars ps ++ '>' :: rest))) := by
        simp [renderAttrsChars]
      rw [hrw, parseAttrs]
      rw [show takeWhileList (fun c => c == ' ' || c == '\n' || c == '\t' || c == '/')
            (' ' :: ((a :: nm2) ++ '=' :: quoteChar
              :: (v ++ quoteChar :: (renderAttrsChars ps ++ '>' :: rest))))
          = ([' '], (a :: nm2) ++ '=' :: quoteChar
              :: (v ++ quoteChar :: (renderAttrsChars ps ++ '>' :: rest))) from by
        have hsp : ((' ' : Char) == ' ' || (' ' : Char) == '\n' || (' ' : Char) == '\t'
            || (' ' : Char) == '/') = true := by decide
        rw [show (' ' :: ((a :: nm2) ++ '=' :: quoteChar
              :: (v ++ quoteChar :: (renderAttrsChars ps ++ '>' :: rest))))
            = [' '] ++ ((a :: nm2) ++ '=' :: quoteChar
              :: (v ++ quoteChar :: (renderAttrsChars ps ++ '>' :: rest))) from rfl]
        refine takeWhileList_split _ [' '] _ (by intro c hc; simp at hc; subst hc; decide) ?_
        simp only [List.cons_append]
        exact (attrNameChar_facts a ha).1]
      dsimp only
      split
      · rename_i heq
        simp only [List.cons_append] at heq
        exact absurd heq (List.cons_ne_nil a _)
      · rename_i r2 heq
        simp only [List.cons_append] at heq
        injection heq with e1 e2
        exact absurd e1 (attrNameChar_facts a ha).2.1
      · rw [takeWhileList_split isAttrNameChar (a :: nm2)
            ('=' :: quoteChar :: (v ++ quoteChar :: (renderAttrsChars ps ++ '>' :: rest)))
            hpa.2.1 (by show isAttrNameChar '=' = false; decide)]
        dsimp only
        split
        · rename_i q cs3 heq
          injection heq with e1 e2
          injection e2 with e3 e4
          subst e3
          subst e4
          rw [if_pos (by simp)]
          rw [takeWhileList_split (fun c => !(c == quoteChar)) v
              (quoteChar :: (renderAttrsChars ps ++ '>' :: rest))
              (fun c hc => by
                have : c ≠ quoteChar := fun e => hpa.2.2 (e ▸ hc)
                simp [this])
              (by show (!(quoteChar == quoteChar)) = false; simp)]
          dsimp only
          rw [ih m rest (by simp only [List.length_cons] at hf; omega)
            (fun pa2 h2 => hok pa2 (List.mem_cons_of_mem _ h2))]
          simp
        · rename_i hno
          exact absurd rfl
            (hno quoteChar (v ++ quoteChar :: (renderAttrsChars ps ++ '>' :: rest)))

/-- Escaped text never contains a double quote. -/
theorem quote_not_mem_escapeData (l : List Char) : quoteChar ∉ escapeData l :=
  fun h => (mem_escapeData h).2.2.1 rfl

/-- Escaped text never contains an opening angle bracket. -/
theorem lt_not_mem_escapeData (l : List Char) : '<' ∉ escapeData l :=
  fun h => (mem_escapeData h).1 rfl

/-- String append acts as list append on the character data. -/
theorem data_append (a b : String) : (a ++ b).data = a.data ++ b.data := rfl

/-- The serialized attribute pairs of a bookmark are well formed. -/
theorem bmPairs_ok (b : Bookmark) : ∀ pa ∈ bmPairs b,
    pa.1 ≠ [] ∧ (∀ c ∈ pa.1, isAttrNameChar c = true) ∧ quoteChar ∉ pa.2 := by
  intro pa hpa
  unfold bmPairs at hpa
  rcases List.mem_cons.mp hpa with rfl | hpa2
  · exact ⟨by show "HREF".data ≠ []; decide,
      by show ∀ c ∈ "HREF".data, isAttrNameChar c = true; decide, by
      show quoteChar ∉ (escapeHtml b.url).data
      exact quote_not_mem_escapeData b.url.data⟩
  · rcases List.mem_append.mp hpa2 with h | h
    · rcases hd : b.addDate with _ | d
      · rw [hd] at h; simp at h
      · rw [hd] at h
        dsimp only at h
        by_cases he : d = ""
        · rw [if_pos he] at h; simp at h
        · rw [if_neg he] at h
          rcases List.mem_singleton.mp h with rfl
          exact ⟨by show "ADD_DATE".data ≠ []; decide,
            by show ∀ c ∈ "ADD_DATE".data, isAttrNameChar c = true; decide, by
            show quoteChar ∉ (escapeHtml d).data
            exact quote_not_mem_escapeData d.data⟩
    · rcases hd : b.icon with _ | d
      · rw [hd] at h; simp at h
      · rw [hd] at h
        dsimp only at h
        by_cases he : d = ""
        · rw [if_pos he] at h; simp at h
        · rw [if_neg he] at h
          rcases List.mem_singleton.mp h with rfl
          exact ⟨by show "ICON".data ≠ []; decide,
            by show ∀ c ∈ "ICON".data, isAttrNameChar c = true; decide, by
            show quoteChar ∉ (escapeHtml d).data
            exact quote_not_mem_escapeData d.data⟩

/-- Rendering attribute pairs is a list homomorphism. -/
theorem renderAttrsChars_append : ∀ (A B : List (List Char × List Char)),
    renderAttrsChars (A ++ B) = renderAttrsChars A ++ renderAttrsChars B := by
  intro A B
  induction A with
  | nil => simp [renderAttrsChars]
  | cons pa A ih =>
      obtain ⟨nm, v⟩ := pa
      simp only [List.cons_append, renderAttrsChars, List.append_eq]
      rw [ih]
      simp

/-- The rendered characters of an optional attribute. -/
theorem optAttr_data (nm : String) (v : Option String) :
    (optAttr nm v).data = renderAttrsChars (match v with
      | some d => if d = "" then [] else [(nm.data, (escapeHtml d).data)]
      | none => []) := by
  rcases v with _ | d
  · rfl
  · by_cases he : d = ""
    · simp [optAttr, he, renderAttrsChars]
    · simp only [optAttr, if_neg he]
      rw [show ((" " ++ nm ++ "=" ++ dq ++ escapeHtml d ++ dq) : String).data
          = ' ' :: (nm.data ++ '=' :: quoteChar :: ((escapeHtml d).data ++ quoteChar :: []))
        from by
          simp only [data_append]
          rw [show dq.data = [quoteChar] from rfl]
          simp]
      rfl

/-- The link start tag of a serialized bookmark as a rendered attribute
list. -/
theorem aTagChars_eq (b : Bookmark) :
    aTagChars b = '<' :: 'A' :: (renderAttrsChars (bmPairs b) ++ ['>']) := by
  unfold aTagChars bmPairs
  rw [show renderAttrsChars (("HREF".data, (escapeHtml b.url).data)
        :: ((match b.addDate with
            | some d => if d = "" then [] else [("ADD_DATE".data, (escapeHtml d).data)]
            | none => [])
          ++ (match b.icon with
            | some d => if d = "" then [] else [("ICON".data, (escapeHtml d).data)]
            | none => [])))
      = ' ' :: ("HREF".data ++ '=' :: quoteChar :: ((escapeHtml b.url).data ++ quoteChar
          :: renderAttrsChars ((match b.addDate with
            | some d => if d = "" then [] else [("ADD_DATE".data, (escapeHtml d).data)]
            | none => [])
          ++ (match b.icon with
            | some d => if d = "" then [] else [("ICON".data, (escapeHtml d).data)]
            | none => [])))) from rfl]
  rw [renderAttrsChars_append]
  simp only [data_append]
  rw [show (dq : String).data = [quoteChar] from rfl,
    optAttr_data "ADD_DATE" b.addDate, optAttr_data "ICON" b.icon]
  simp

/-- Lower-casing and decoding recover an escaped attribute pair. -/
theorem map_escPair (nmU : List Char) (nmL : String) (d : String)
    (h : lowerStr (String.mk nmU) = nmL) :
    (lowerStr (String.mk nmU), String.mk (decodeEnt (escapeHtml d).data)) = (nmL, d) := by
  rw [show (escapeHtml d).data = escapeData d.data from rfl, decodeEnt_escapeData, h]

/-- The tokenizer recovers exactly `bmAttrs` from the serialized pairs. -/
theorem bmAttrs_eq (b : Bookmark) :
    (bmPairs b).map (fun pa => (lowerStr (String.mk pa.1), String.mk (decodeEnt pa.2)))
      = bmAttrs b := by
  unfold bmPairs bmAttrs
  simp only [List.map_cons, List.map_append]
  rw [map_escPair ['H', 'R', 'E', 'F'] "href" b.url (by decide)]
  congr 1
  congr 1
  · rcases b.addDate with _ | d
    · rfl
    · dsimp only
      by_cases he : d = ""
      · rw [if_pos he, if_pos he]
        rfl
      · rw [if_neg he, if_neg he]
        simp only [List.map_cons, List.map_nil]
        rw [map_escPair ['A', 'D', 'D', '_', 'D', 'A', 'T', 'E'] "add_date" d (by decide)]
  · rcases b.icon with _ | d
    · rfl
    · dsimp only
      by_cases he : d = ""
      · rw [if_pos he, if_pos he]
        rfl
      · rw [if_neg he, if_neg he]
        simp only [List.map_cons, List.map_nil]
        rw [map_escPair ['I', 'C', 'O', 'N'] "icon" d (by decide)]

/-- The serialized link start tag tokenizes to a single `a` start token
carrying the recovered attributes. -/
theorem tokStream_aTag (b : Bookmark) (rest : List Char) :
    tokStream (aTagChars b ++ rest) = Tok.tagOpen "a" (bmAttrs b) :: tokStream rest := by
  rw [aTagChars_eq]
  rw [show ('<' :: 'A' :: (renderAttrsChars (bmPairs b) ++ ['>'])) ++ rest
      = '<' :: ('A' :: (renderAttrsChars (bmPairs b) ++ '>' :: rest)) from by simp]
  show tokenizeAux (('A' :: (renderAttrsChars (bmPairs b) ++ '>' :: rest)).length + 1 + 1)
      ('<' :: ('A' :: (renderAttrsChars (bmPairs b) ++ '>' :: rest))) = _
  rw [tokenizeAux_open (('A' :: (renderAttrsChars (bmPairs b) ++ '>' :: rest)).length + 1)
      ('A' :: (renderAttrsChars (bmPairs b) ++ '>' :: rest))
      (by intro r2 hh; injection hh with e1 e2; exact absurd e1 (by decide))
      (by intro r2 hh; injection hh with e1 e2; exact absurd e1 (by decide))]
  obtain ⟨Z, hZ⟩ : ∃ Z, renderAttrsChars (bmPairs b) = ' ' :: Z := ⟨_, rfl⟩
  rw [show ('A' :: (renderAttrsChars (bmPairs b) ++ '>' :: rest))
      = ['A'] ++ (renderAttrsChars (bmPairs b) ++ '>' :: rest) from rfl]
  rw [takeWhileList_split isNameChar ['A'] (renderAttrsChars (bmPairs b) ++ '>' :: rest)
      (by intro c hc; rcases List.mem_singleton.mp hc with rfl; decide)
      (by rw [hZ]; show isNameChar ' ' = false; decide)]
  dsimp only
  rw [parseAttrs_render (bmPairs b) ((renderAttrsChars (bmPairs b) ++ '>' :: rest).length + 1)
      rest
      (by
        have := renderAttrs_len_ge (bmPairs b)
        simp only [List.length_append, List.length_cons]
        omega)
      (bmPairs_ok b)]
  dsimp only
  rw [bmAttrs_eq]
  rw [show lowerStr (String.mk ['A']) = "a" from by decide]
  have hge : tokenizeAux ((['A'] ++ (renderAttrsChars (bmPairs b) ++ '>' :: rest)).length + 1) rest
      = tokenizeAux (rest.length + 1) rest := by
    apply tokenizeAux_ge
    · simp only [List.length_append, List.length_cons]
      omega
    · omega
  rw [hge]
  rfl


/-- `dropThrough` consumes exactly through the first stop character. -/
theorem dropThrough_split (stop : Char) : ∀ (t rest : List Char), stop ∉ t →
    dropThrough stop (t ++ stop :: rest) = rest := by
  intro t
  induction t with
  | nil => intro rest h; simp [dropThrough]
  | cons c t ih =>
      intro rest h
      have hc : c ≠ stop := fun e => h (e ▸ List.mem_cons_self c t)
      simp only [List.cons_append, dropThrough, hc, if_false]
      exact ih rest (fun m => h (List.mem_cons_of_mem c m))

/-- `dropComment` consumes exactly through the comment terminator when the
body has no dashes. -/
theorem dropComment_split : ∀ (t rest : List Char), '-' ∉ t →
    dropComment (t ++ '-' :: '-' :: '>' :: rest) = rest := by
  intro t
  induction t with
  | nil => intro rest h; rfl
  | cons c t ih =>
      intro rest h
      have hc : c ≠ '-' := fun e => h (e ▸ List.mem_cons_self c t)
      rw [List.cons_append, dropComment.eq_def]
      have ih2 := ih rest (fun m => h (List.mem_cons_of_mem c m))
      split <;> simp_all
      rename_i heq
      rw [← heq.2]
      exact ih rest

/-- The character data of a joined string list. -/
theorem join_data : ∀ l : List String, (String.join l).data = (l.map String.data).flatten := by
  have h : ∀ (l : List String) (init : String),
      (List.foldl (· ++ ·) init l).data = init.data ++ (l.map String.data).flatten := by
    intro l
    induction l with
    | nil => intro init; simp
    | cons s l ih =>
        intro init
        simp only [List.foldl_cons, List.map_cons, List.flatten_cons]
        rw [ih (init ++ s), data_append]
        simp
  intro l
  have h2 := h l ""
  simpa using h2

/-- A nonempty string has nonempty character data. -/
theorem str_data_ne_nil {s : String} (h : s ≠ "") : s.data ≠ [] := by
  intro e
  exact h (String.ext e)

/-- Every character of an indentation run is a space. -/
theorem mem_spaces {n : Nat} {c : Char} (h : c ∈ (spaces n).data) : c = ' ' := by
  unfold spaces at h
  exact List.eq_of_mem_replicate h

/-- The four-character term-entry start tag is a well-formed segment. -/
theorem dtSeg_ok : SegOk dtSeg := by
  refine ⟨⟨_, rfl⟩, ?_⟩
  intro rest
  rw [show "<DT>".data ++ rest = '<' :: (['D', 'T'] ++ '>' :: rest) from rfl]
  rw [tokStream_openTag ['D', 'T'] rest (by decide) (by decide)]
  rw [show lowerStr (String.mk ['D', 'T']) = "dt" from by decide]

/-- The heading start tag is a well-formed segment. -/
theorem h3Seg_ok : SegOk h3Seg := by
  refine ⟨⟨_, rfl⟩, ?_⟩
  intro rest
  rw [show "<H3>".data ++ rest = '<' :: (['H', '3'] ++ '>' :: rest) from rfl]
  rw [tokStream_openTag ['H', '3'] rest (by decide) (by decide)]
  rw [show lowerStr (String.mk ['H', '3']) = "h3" from by decide]

/-- The heading end tag is a well-formed segment. -/
theorem h3CloseSeg_ok : SegOk h3CloseSeg := by
  refine ⟨⟨_, rfl⟩, ?_⟩
  intro rest
  rw [show "</H3>".data ++ rest = '<' :: '/' :: (['H', '3'] ++ '>' :: rest) from rfl]
  rw [tokStream_closeTag ['H', '3'] rest (by decide)]
  rw [show lowerStr (String.mk ['H', '3']) = "h3" from by decide]

/-- The definition-list start tag is a well-formed segment. -/
theorem dlSeg_ok : SegOk dlSeg := by
  refine ⟨⟨_, rfl⟩, ?_⟩
  intro rest
  rw [show "<DL>".data ++ rest = '<' :: (['D', 'L'] ++ '>' :: rest) from rfl]
  rw [tokStream_openTag ['D', 'L'] rest (by decide) (by decide)]
  rw [show lowerStr (String.mk ['D', 'L']) = "dl" from by decide]

/-- The paragraph start tag is a well-formed segment. -/
theorem pSeg_ok : SegOk pSeg := by
  refine ⟨⟨_, rfl⟩, ?_⟩
  intro rest
  rw [show "<p>".data ++ rest = '<' :: (['p'] ++ '>' :: rest) from rfl]
  rw [tokStream_openTag ['p'] rest (by decide) (by decide)]
  rw [show lowerStr (String.mk ['p']) = "p" from by decide]

/-- The definition-list end tag is a well-formed segment. -/
theorem dlCloseSeg_ok : SegOk dlCloseSeg := by
  refine ⟨⟨_, rfl⟩, ?_⟩
  intro rest
  rw [show "</DL>".data ++ rest = '<' :: '/' :: (['D', 'L'] ++ '>' :: rest) from rfl]
  rw [tokStream_closeTag ['D', 'L'] rest (by decide)]
  rw [show lowerStr (String.mk ['D', 'L']) = "dl" from by decide]

/-- The link end tag is a well-formed segment. -/
theorem aCloseSeg_ok : SegOk aCloseSeg := by
  refine ⟨⟨_, rfl⟩, ?_⟩
  intro rest
  rw [show "</A>".data ++ rest = '<' :: '/' :: (['A'] ++ '>' :: rest) from rfl]
  rw [tokStream_closeTag ['A'] rest (by decide)]
  rw [show lowerStr (String.mk ['A']) = "a" from by decide]

/-- The link start tag of a serialized bookmark is a well-formed segment. -/
theorem aSeg_ok (b : Bookmark) : SegOk (aSeg b) := by
  refine ⟨⟨'A' :: (renderAttrsChars (bmPairs b) ++ ['>']), aTagChars_eq b⟩, ?_⟩
  intro rest
  exact tokStream_aTag b rest

/-- A named start tag with double-quoted attributes tokenizes to a single
token with lower-cased names and decoded values. -/
theorem tokStream_openAttrs (nmU : List Char) (ps : List (List Char × List Char))
    (rest : List Char) (h0 : nmU ≠ []) (h1 : ∀ c ∈ nmU, isNameChar c = true)
    (hne : ps ≠ [])
    (hok : ∀ pa ∈ ps, pa.1 ≠ [] ∧ (∀ c ∈ pa.1, isAttrNameChar c = true) ∧ quoteChar ∉ pa.2) :
    tokStream ('<' :: (nmU ++ (renderAttrsChars ps ++ '>' :: rest)))
      = Tok.tagOpen (lowerStr (String.mk nmU))
          (ps.map (fun pa => (lowerStr (String.mk pa.1), String.mk (decodeEnt pa.2))))
        :: tokStream rest := by
  show tokenizeAux ((nmU ++ (renderAttrsChars ps ++ '>' :: rest)).length + 1 + 1)
      ('<' :: (nmU ++ (renderAttrsChars ps ++ '>' :: rest))) = _
  rw [tokenizeAux_open ((nmU ++ (renderAttrsChars ps ++ '>' :: rest)).length + 1)
      (nmU ++ (renderAttrsChars ps ++ '>' :: rest))
      (by
        intro r2 hh
        cases nmU with
        | nil => exact h0 rfl
        | cons a t2 =>
            rw [List.cons_append] at hh
            injection hh with e1 e2
            exact (nameChar_facts a (h1 a (List.mem_cons_self a t2))).1 e1)
      (by
        intro r2 hh
        cases nmU with
        | nil => exact h0 rfl
        | cons a t2 =>
            rw [List.cons_append] at hh
            injection hh with e1 e2
            exact (nameChar_facts a (h1 a (List.mem_cons_self a t2))).2.1 e1)]
  obtain ⟨pa, ps2, rfl⟩ := List.exists_cons_of_ne_nil hne
  obtain ⟨nm, v⟩ := pa
  rw [takeWhileList_split isNameChar nmU (renderAttrsChars ((nm, v) :: ps2) ++ '>' :: rest) h1
      (by show isNameChar ' ' = false; decide)]
  cases nmU with
  | nil => exact absurd rfl h0
  | cons a t2 =>
      dsimp only
      rw [parseAttrs_render ((nm, v) :: ps2)
          ((renderAttrsChars ((nm, v) :: ps2) ++ '>' :: rest).length + 1) rest
          (by
            have h9 := renderAttrs_len_ge ((nm, v) :: ps2)
            simp only [List.length_append, List.length_cons] at h9 ⊢
            omega)
          hok]
      dsimp only
      have hge : tokenizeAux ((a :: t2 ++ (renderAttrsChars ((nm, v) :: ps2) ++ '>' :: rest)).length
            + 1) rest = tokenizeAux (rest.length + 1) rest := by
        apply tokenizeAux_ge
        · simp only [List.length_append, List.length_cons]
          omega
        · omega
      rw [hge]
      rfl

/-- Every segment of the fixed header is well formed. -/
theorem headerSegs_ok : ∀ sg ∈ headerSegs, SegOk sg := by
  intro sg hsg
  fin_cases hsg
  · refine ⟨⟨_, rfl⟩, ?_⟩
    intro rest
    show tokenizeAux (("DOCTYPE NETSCAPE-Bookmark-file-1".data ++ '>' :: rest).length + 1 + 1 + 1)
        ('<' :: '!' :: ("DOCTYPE NETSCAPE-Bookmark-file-1".data ++ '>' :: rest)) = _
    rw [tokenizeAux_bang _ _ (by intro r2 hh; injection hh with e1 e2; exact absurd e1 (by decide))]
    rw [dropThrough_split '>' "DOCTYPE NETSCAPE-Bookmark-file-1".data rest (by decide)]
    have hge : tokenizeAux (("DOCTYPE NETSCAPE-Bookmark-file-1".data ++ '>' :: rest).length + 2)
        rest = tokenizeAux (rest.length + 1) rest := by
      apply tokenizeAux_ge
      · simp only [List.length_append, List.length_cons]
        omega
      · omega
    rw [hge]
    rfl
  · exact ⟨by decide, by decide⟩
  · refine ⟨⟨_, rfl⟩, ?_⟩
    intro rest
    show tokenizeAux
        ((" This is an automatically generated file.\n     It will be read and overwritten.\n     DO NOT EDIT! ".data
          ++ '-' :: '-' :: '>' :: rest).length + 4 + 1)
        ('<' :: '!' :: '-' :: '-'
          :: (" This is an automatically generated file.\n     It will be read and overwritten.\n     DO NOT EDIT! ".data
            ++ '-' :: '-' :: '>' :: rest)) = _
    rw [tokenizeAux_comment]
    rw [dropComment_split
        " This is an automatically generated file.\n     It will be read and overwritten.\n     DO NOT EDIT! ".data
        rest (by decide)]
    have hge : tokenizeAux
        ((" This is an automatically generated file.\n     It will be read and overwritten.\n     DO NOT EDIT! ".data
          ++ '-' :: '-' :: '>' :: rest).length + 4) rest
        = tokenizeAux (rest.length + 1) rest := by
      apply tokenizeAux_ge
      · simp only [List.length_append, List.length_cons]
        omega
      · omega
    rw [hge]
    rfl
  · exact ⟨by decide, by decide⟩
  · refine ⟨⟨_, rfl⟩, ?_⟩
    intro rest
    rw [show "<META HTTP-EQUIV=\"Content-Type\" CONTENT=\"text/html; charset=UTF-8\">".data ++ rest
        = '<' :: (['M', 'E', 'T', 'A']
          ++ (renderAttrsChars [("HTTP-EQUIV".data, "Content-Type".data),
              ("CONTENT".data, "text/html; charset=UTF-8".data)] ++ '>' :: rest)) from by rfl]
    rw [tokStream_openAttrs ['M', 'E', 'T', 'A']
        [("HTTP-EQUIV".data, "Content-Type".data),
         ("CONTENT".data, "text/html; charset=UTF-8".data)] rest
        (by decide) (by decide) (by decide)
        (by
          intro pa hpa
          fin_cases hpa
          · exact ⟨by decide, by decide, by decide⟩
          · exact ⟨by decide, by decide, by decide⟩)]
    rw [show (Tok.tagOpen (lowerStr (String.mk ['M', 'E', 'T', 'A']))
        (([("HTTP-EQUIV".data, "Content-Type".data),
           ("CONTENT".data, "text/html; charset=UTF-8".data)]).map
          (fun pa => (lowerStr (String.mk pa.1), String.mk (decodeEnt pa.2)))))
      = Tok.tagOpen "meta" [("http-equiv", "Content-Type"),
          ("content", "text/html; charset=UTF-8")] from by decide]
  · exact ⟨by decide, by decide⟩
  · refine ⟨⟨_, rfl⟩, ?_⟩
    intro rest
    rw [show "<TITLE>".data ++ rest = '<' :: (['T', 'I', 'T', 'L', 'E'] ++ '>' :: rest) from rfl]
    rw [tokStream_openTag ['T', 'I', 'T', 'L', 'E'] rest (by decide) (by decide)]
    rw [show lowerStr (String.mk ['T', 'I', 'T', 'L', 'E']) = "title" from by decide]
  · exact ⟨by decide, by decide⟩
  · refine ⟨⟨_, rfl⟩, ?_⟩
    intro rest
    rw [show "</TITLE>".data ++ rest = '<' :: '/' :: (['T', 'I', 'T', 'L', 'E'] ++ '>' :: rest)
      from rfl]
    rw [tokStream_closeTag ['T', 'I', 'T', 'L', 'E'] rest (by decide)]
    rw [show lowerStr (String.mk ['T', 'I', 'T', 'L', 'E']) = "title" from by decide]
  · exact ⟨by decide, by decide⟩
  · refine ⟨⟨_, rfl⟩, ?_⟩
    intro rest
    rw [show "<H1>".data ++ rest = '<' :: (['H', '1'] ++ '>' :: rest) from rfl]
    rw [tokStream_openTag ['H', '1'] rest (by decide) (by decide)]
    rw [show lowerStr (String.mk ['H', '1']) = "h1" from by decide]
  · exact ⟨by decide, by decide⟩
  · refine ⟨⟨_, rfl⟩, ?_⟩
    intro rest
    rw [show "</H1>".data ++ rest = '<' :: '/' :: (['H', '1'] ++ '>' :: rest) from rfl]
    rw [tokStream_closeTag ['H', '1'] rest (by decide)]
    rw [show lowerStr (String.mk ['H', '1']) = "h1" from by decide]
  · exact ⟨by decide, by decide⟩
  · exact dlSeg_ok
  · exact pSeg_ok

-- C1-DEV-MARKER

set_option maxHeartbeats 4000000 in
/-- C4: every text and attribute value inserted by `exportToHTML` passes
through `escapeHtml`, which eliminates raw `<`, `>`, `"` and apostrophe
characters and encodes the five significant characters reversibly (so
every remaining `&` opens one of the five entities); in particular the
bookmark titled `Tom & Jerry <test>` serializes with `&amp;`/`&lt;...&gt;`
and its raw title never appears in the output document. -/
theorem c4_export_escapes_fields :
    (∀ s : String, ∀ x ∈ (escapeHtml s).data,
        x ≠ '<' ∧ x ≠ '>' ∧ x ≠ quoteChar ∧ x ≠ aposChar)
    ∧ (∀ s : String, decodeEnt (escapeHtml s).data = s.data)
    ∧ escapeHtml "Tom & Jerry <test>" = "Tom &amp; Jerry &lt;test&gt;"
    ∧ strContains (exportToHTML c4lib) "Tom &amp; Jerry &lt;test&gt;" = true
    ∧ strContains (exportToHTML c4lib) "Tom & Jerry" = false := by
  refine ⟨fun s x hx => mem_escapeData hx, fun s => decodeEnt_escapeData s.data,
    ?_, ?_, ?_⟩
  · decide
  · decide
  · decide

/-- Witness instantiating the quantified parts of C4 at concrete inputs. -/
theorem c4_export_escapes_fields_witness :
    (('T' : Char) ≠ '<' ∧ ('T' : Char) ≠ '>' ∧ ('T' : Char) ≠ quoteChar ∧ ('T' : Char) ≠ aposChar)
    ∧ decodeEnt (escapeHtml "a&b<c>").data = "a&b<c>".data :=
  ⟨c4_export_escapes_fields.1 "Tom" 'T' (by decide),
   c4_export_escapes_fields.2.1 "a&b<c>"⟩

/-! ## Full-proposal application (C2, C7) -/

theorem sameCore_refl (b : Bookmark) : sameCore b b :=
  ⟨rfl, rfl, rfl, rfl, rfl, rfl⟩

theorem sameCore_trans {a b c : Bookmark} (h1 : sameCore a b) (h2 : sameCore b c) :
    sameCore a c := by
  obtain ⟨e1, e2, e3, e4, e5, e6⟩ := h1
  obtain ⟨g1, g2, g3, g4, g5, g6⟩ := h2
  exact ⟨e1.trans g1, e2.trans g2, e3.trans g3, e4.trans g4, e5.trans g5, e6.trans g6⟩

theorem forall2_comp {α : Type} {R S T : α → α → Prop} {l1 l2 l3 : List α}
    (hc : ∀ a b c, R a b → S b c → T a c)
    (h1 : List.Forall₂ R l1 l2) (h2 : List.Forall₂ S l2 l3) :
    List.Forall₂ T l1 l3 := by
  induction h1 generalizing l3 with
  | nil => cases h2; exact List.Forall₂.nil
  | cons hab h ih =>
      cases h2 with
      | cons hbc h2tail => exact List.Forall₂.cons (hc _ _ _ hab hbc) (ih h2tail)

theorem setFolderOnFirst_rel (bid fid : String) (l : List Bookmark) :
    List.Forall₂ (fun b b2 => sameCore b b2 ∧ (b.id ≠ bid → b2 = b)) l
      (setFolderOnFirst bid fid l) := by
  induction l with
  | nil => exact List.Forall₂.nil
  | cons b bs ih =>
      rw [setFolderOnFirst]
      by_cases h : b.id = bid
      · rw [if_pos h]
        refine List.Forall₂.cons ⟨⟨rfl, rfl, rfl, rfl, rfl, rfl⟩, fun hne => absurd h hne⟩ ?_
        exact List.forall₂_same.mpr fun x _ => ⟨sameCore_refl x, fun _ => rfl⟩
      · rw [if_neg h]
        exact List.Forall₂.cons ⟨sameCore_refl b, fun _ => rfl⟩ ih

theorem applyAssignment_rel (m : List (String × String)) (l : List Bookmark)
    (a : SuggestionAssignment) :
    List.Forall₂ (fun b b2 => sameCore b b2 ∧ (b.id ≠ a.bookmarkId → b2 = b)) l
      (applyAssignment m l a) := by
  unfold applyAssignment
  cases alookup a.folderPath m with
  | none => exact List.forall₂_same.mpr fun x _ => ⟨sameCore_refl x, fun _ => rfl⟩
  | some fid => exact setFolderOnFirst_rel a.bookmarkId fid l

theorem foldl_assign_rel (m : List (String × String))
    (as : List SuggestionAssignment) :
    ∀ l : List Bookmark,
      List.Forall₂
        (fun b b2 => sameCore b b2
          ∧ untouchedIf (as.map SuggestionAssignment.bookmarkId) b b2)
        l (as.foldl (applyAssignment m) l) := by
  induction as with
  | nil =>
      intro l
      rw [List.foldl_nil]
      exact List.forall₂_same.mpr fun x _ => ⟨sameCore_refl x, fun _ => rfl⟩
  | cons a as ih =>
      intro l
      rw [List.foldl_cons]
      refine forall2_comp ?_ (applyAssignment_rel m l a) (ih (applyAssignment m l a))
      intro x y z hxy hyz
      refine ⟨sameCore_trans hxy.1 hyz.1, ?_⟩
      intro hid
      have hne : x.id ≠ a.bookmarkId := by
        intro e
        exact hid (by rw [List.map_cons, e]; exact List.mem_cons_self _ _)
      have hyx : y = x := hxy.2 hne
      have hnotin : x.id ∉ as.map SuggestionAssignment.bookmarkId := by
        intro hm
        exact hid (by rw [List.map_cons]; exact List.mem_cons_of_mem _ hm)
      have hzy : z = y := hyz.2 (by rw [hyx]; exact hnotin)
      rw [hzy, hyx]

/-- C2: applying a full proposal replaces the folder list wholesale with the
folders synthesized from the proposal's paths (independently of the prior
folder list), while the bookmark list keeps its length, order and all
non-`folder` fields; a bookmark whose id is not targeted by any assignment
is returned completely unchanged, keeping its prior `folder` value even
when that folder no longer exists in the new folder list. -/
theorem c2_applySuggestion_full_replace (L : BookmarkLibrary) (s : Suggestion) :
    ((applySuggestion L s).folders = (resolveFolders initResolve s.folders).newFolders)
    ∧ (∀ L2 : BookmarkLibrary, (applySuggestion L2 s).folders = (applySuggestion L s).folders)
    ∧ List.Forall₂
        (fun b b2 => sameCore b b2
          ∧ untouchedIf (s.assignments.map SuggestionAssignment.bookmarkId) b b2)
        L.bookmarks (applySuggestion L s).bookmarks :=
  ⟨rfl, fun _ => rfl, foldl_assign_rel _ s.assignments L.bookmarks⟩

/-- Witness for C2: a library whose only folder is replaced by the
proposal's folder `X` while its unassigned bookmark keeps the now-dangling
folder reference `old`. -/
theorem c2_applySuggestion_full_replace_witness :
    List.Forall₂
      (fun b b2 => sameCore b b2 ∧ untouchedIf [] b b2)
      [⟨"b1", "T", "u", none, none, none, some "old"⟩]
      (applySuggestion ⟨[⟨"b1", "T", "u", none, none, none, some "old"⟩],
          [⟨"old", "Old", none⟩]⟩ ⟨[⟨"X"⟩], []⟩).bookmarks
    ∧ applySuggestion ⟨[⟨"b1", "T", "u", none, none, none, some "old"⟩],
          [⟨"old", "Old", none⟩]⟩ ⟨[⟨"X"⟩], []⟩
        = ⟨[⟨"b1", "T", "u", none, none, none, some "old"⟩], [⟨freshId 0, "X", none⟩]⟩ :=
  ⟨(c2_applySuggestion_full_replace
      ⟨[⟨"b1", "T", "u", none, none, none, some "old"⟩], [⟨"old", "Old", none⟩]⟩
      ⟨[⟨"X"⟩], []⟩).2.2,
   by decide⟩

/-- C7: an assignment whose `folderPath` is not a key of the resolver's
path map is skipped entirely: applying the proposal gives the same library
as applying the proposal with that assignment removed, so the referenced
bookmark keeps its prior `folder` and the remaining assignments still
apply. -/
theorem c7_unresolved_assignment_skipped (L : BookmarkLibrary)
    (fs : List SuggestionFolder) (xs ys : List SuggestionAssignment)
    (a : SuggestionAssignment)
    (h : alookup a.folderPath (resolveFolders initResolve fs).pathMap = none) :
    applySuggestion L ⟨fs, xs ++ a :: ys⟩ = applySuggestion L ⟨fs, xs ++ ys⟩ := by
  have hm : ∀ bs, applyAssignment (resolveFolders initResolve fs).pathMap bs a = bs := by
    intro bs
    unfold applyAssignment
    rw [h]
  simp only [applySuggestion, List.foldl_append, List.foldl_cons, hm]

/-- Witness for C7: the assignment to the unresolved path `Nope` is
dropped without affecting the proposal's other effects. -/
theorem c7_unresolved_assignment_skipped_witness :
    applySuggestion ⟨[⟨"b1", "T", "u", none, none, none, none⟩], []⟩
        ⟨[⟨"X"⟩], [⟨"b1", "Nope"⟩]⟩
      = applySuggestion ⟨[⟨"b1", "T", "u", none, none, none, none⟩], []⟩ ⟨[⟨"X"⟩], []⟩ :=
  c7_unresolved_assignment_skipped _ [⟨"X"⟩] [] [] ⟨"b1", "Nope"⟩ (by decide)

/-! ## Path resolver (C3) -/

theorem alookup_eq_none_iff {α : Type} (k : String) (m : List (String × α)) :
    alookup k m = none ↔ k ∉ m.map Prod.fst := by
  induction m with
  | nil => simp [alookup]
  | cons p rest ih =>
      obtain ⟨k2, v⟩ := p
      by_cases h : k2 = k
      · subst h
        simp [alookup]
      · rw [List.map_cons]
        simp only [alookup, if_neg h, List.mem_cons, ih]
        constructor
        · intro hn hor
          rcases hor with e | hm
          · exact h e.symm
          · exact hn hm
        · intro hn hm
          exact hn (Or.inr hm)

theorem alookup_some_mem_keys {α : Type} {k : String} {m : List (String × α)} {v : α}
    (h : alookup k m = some v) : k ∈ m.map Prod.fst := by
  by_contra hn
  rw [← alookup_eq_none_iff] at hn
  rw [h] at hn
  cases hn

theorem alookup_ne_of_none_of_some {α : Type} {k1 k2 : String}
    {m : List (String × α)} {v : α}
    (h1 : alookup k1 m = none) (h2 : alookup k2 m = some v) : k1 ≠ k2 := by
  intro e
  rw [e, h2] at h1
  cases h1

theorem stepPart_eq_of_some {parent : Option String} {cur : String}
    {st : ResolveState} {part : String} {fid : String}
    (hl : alookup (accKey cur part) st.pathMap = some fid) :
    stepPart (parent, cur, st) part = (some fid, accKey cur part, st) := by
  simp [stepPart, hl]

theorem stepPart_eq_of_none {parent : Option String} {cur : String}
    {st : ResolveState} {part : String}
    (hl : alookup (accKey cur part) st.pathMap = none) :
    stepPart (parent, cur, st) part =
      (some (freshId st.counter), accKey cur part,
        ⟨(accKey cur part, freshId st.counter) :: st.pathMap,
         st.newFolders ++ [⟨freshId st.counter, part, parent⟩], st.counter + 1⟩) := by
  simp [stepPart, hl]

theorem foldl_stepPart_spec (parts : List String) :
    ∀ (parent : Option String) (cur : String) (st : ResolveState),
    ((parent = none ∧ cur = "") ∨
      (∃ pv, parent = some pv ∧ alookup cur st.pathMap = some pv)) →
    (∀ k v, alookup k st.pathMap = some v → folderForKey st k v) →
    st.newFolders.length = st.pathMap.length →
    (∀ k v, alookup k st.pathMap = some v →
        alookup k (parts.foldl stepPart (parent, cur, st)).2.2.pathMap = some v)
    ∧ (∀ k v, alookup k (parts.foldl stepPart (parent, cur, st)).2.2.pathMap = some v →
        folderForKey (parts.foldl stepPart (parent, cur, st)).2.2 k v)
    ∧ (parts.foldl stepPart (parent, cur, st)).2.2.newFolders.length
        = (parts.foldl stepPart (parent, cur, st)).2.2.pathMap.length
    ∧ (parts.foldl stepPart (parent, cur, st)).2.2.pathMap.reverse.map Prod.fst
        = (prefixListFrom cur parts).foldl dedupAppend
            (st.pathMap.reverse.map Prod.fst) := by
  induction parts with
  | nil =>
      intro parent cur st _haccInv hinv hlen
      exact ⟨fun k v h => h, hinv, hlen, by rw [prefixListFrom, List.foldl_nil, List.foldl_nil]⟩
  | cons part rest ih =>
      intro parent cur st haccInv hinv hlen
      rw [List.foldl_cons, prefixListFrom, List.foldl_cons]
      cases hl : alookup (accKey cur part) st.pathMap with
      | some fid =>
          rw [stepPart_eq_of_some hl]
          have hmem : accKey cur part ∈ st.pathMap.reverse.map Prod.fst := by
            rw [List.map_reverse, List.mem_reverse]
            exact alookup_some_mem_keys hl
          have hks : dedupAppend (st.pathMap.reverse.map Prod.fst) (accKey cur part)
              = st.pathMap.reverse.map Prod.fst := by
            unfold dedupAppend
            rw [if_pos hmem]
          have IH := ih (some fid) (accKey cur part) st (Or.inr ⟨fid, rfl, hl⟩) hinv hlen
          exact ⟨IH.1, IH.2.1, IH.2.2.1, by rw [IH.2.2.2, hks]⟩
      | none =>
          rw [stepPart_eq_of_none hl]
          have hpres2 : ∀ k v, alookup k st.pathMap = some v →
              alookup k ((accKey cur part, freshId st.counter) :: st.pathMap) = some v := by
            intro k v h
            have hne := alookup_ne_of_none_of_some hl h
            simp only [alookup, if_neg hne]
            exact h
          have hinv2 : ∀ k v,
              alookup k ((accKey cur part, freshId st.counter) :: st.pathMap) = some v →
              folderForKey
                ⟨(accKey cur part, freshId st.counter) :: st.pathMap,
                 st.newFolders ++ [⟨freshId st.counter, part, parent⟩], st.counter + 1⟩ k v := by
            intro k v h
            by_cases hk : accKey cur part = k
            · subst hk
              simp only [alookup, if_pos rfl] at h
              rw [if_pos trivial] at h
              refine ⟨⟨freshId st.counter, part, parent⟩,
                List.mem_append_right _ (List.mem_singleton.mpr rfl),
                Option.some.inj h, ?_⟩
              rcases haccInv with ⟨hp, hc⟩ | ⟨pv, hp, hcl⟩
              · subst hp; subst hc
                exact Or.inl ⟨rfl, by rw [accKey, if_pos rfl]⟩
              · refine Or.inr ⟨cur, pv, by rw [hp], hpres2 _ _ hcl, rfl⟩
            · simp only [alookup, if_neg hk] at h
              obtain ⟨f, hf, hid, hdisj⟩ := hinv k v h
              refine ⟨f, List.mem_append_left _ hf, hid, ?_⟩
              rcases hdisj with hleft | ⟨pk, pv, hp, hpl, hk2⟩
              · exact Or.inl hleft
              · exact Or.inr ⟨pk, pv, hp, hpres2 _ _ hpl, hk2⟩
          have hlen2 :
              (st.newFolders ++ [(⟨freshId st.counter, part, parent⟩ : Folder)]).length
                = ((accKey cur part, freshId st.counter) :: st.pathMap).length := by
            simp [hlen]
          have haccInv2 :
              ((some (freshId st.counter) : Option String) = none ∧ accKey cur part = "") ∨
              (∃ pv, (some (freshId st.counter) : Option String) = some pv ∧
                alookup (accKey cur part)
                  ((accKey cur part, freshId st.counter) :: st.pathMap) = some pv) :=
            Or.inr ⟨freshId st.counter, rfl, by simp [alookup]⟩
          have hks : (((accKey cur part, freshId st.counter) :: st.pathMap).reverse.map
                Prod.fst)
              = dedupAppend (st.pathMap.reverse.map Prod.fst) (accKey cur part) := by
            have hnm : accKey cur part ∉ st.pathMap.reverse.map Prod.fst := by
              rw [List.map_reverse, List.mem_reverse]
              exact (alookup_eq_none_iff _ _).mp hl
            unfold dedupAppend
            rw [if_neg hnm, List.reverse_cons, List.map_append]
            rfl
          have IH := ih (some (freshId st.counter)) (accKey cur part)
            ⟨(accKey cur part, freshId st.counter) :: st.pathMap,
             st.newFolders ++ [⟨freshId st.counter, part, parent⟩], st.counter + 1⟩
            haccInv2 hinv2 hlen2
          refine ⟨fun k v h => IH.1 k v (hpres2 k v h), IH.2.1, IH.2.2.1, ?_⟩
          rw [IH.2.2.2, hks]

theorem resolveFolders_spec (fs : List SuggestionFolder) :
    ∀ st : ResolveState,
    (∀ k v, alookup k st.pathMap = some v → folderForKey st k v) →
    st.newFolders.length = st.pathMap.length →
    (∀ k v, alookup k (resolveFolders st fs).pathMap = some v →
        folderForKey (resolveFolders st fs) k v)
    ∧ (resolveFolders st fs).newFolders.length = (resolveFolders st fs).pathMap.length
    ∧ (resolveFolders st fs).pathMap.reverse.map Prod.fst
        = fs.foldl (fun ks f => (prefixStrings f.path).foldl dedupAppend ks)
            (st.pathMap.reverse.map Prod.fst) := by
  induction fs with
  | nil =>
      intro st hinv hlen
      exact ⟨hinv, hlen, by rw [resolveFolders, List.foldl_nil, List.foldl_nil]⟩
  | cons f rest ih =>
      intro st hinv hlen
      have H := foldl_stepPart_spec (splitPath f.path) none "" st
        (Or.inl ⟨rfl, rfl⟩) hinv hlen
      have hstep : resolveFolders st (f :: rest)
          = resolveFolders (resolvePath st f.path) rest := by
        rw [resolveFolders, resolveFolders, List.foldl_cons]
      have IH := ih (resolvePath st f.path) H.2.1 H.2.2.1
      rw [hstep, List.foldl_cons]
      refine ⟨IH.1, IH.2.1, ?_⟩
      rw [IH.2.2]
      congr 1
      exact H.2.2.2

set_option maxRecDepth 40000 in
/-- C3: the resolver synthesizes exactly one folder per distinct
accumulated prefix across all proposal paths (the folder count equals the
number of distinct accumulated prefixes, which are exactly the keys of the
path map in first-occurrence order), and the folder recorded for each
resolved key has `parentId` absent when the key was the first accumulated
prefix of its creating path and otherwise equal to the id the map resolves
for the immediately shorter accumulated prefix; in particular resolving
`["A/B/C", "A/B/D"]` creates exactly 4 folders, with the folders for `A`
and `A/B` created once and shared as ancestors of both paths. -/
theorem c3_path_resolver_shares_prefixes (fs : List SuggestionFolder) :
    ((resolveFolders initResolve fs).newFolders.length = (distinctKeys fs).length)
    ∧ ((resolveFolders initResolve fs).pathMap.reverse.map Prod.fst = distinctKeys fs)
    ∧ (∀ k v, alookup k (resolveFolders initResolve fs).pathMap = some v →
        folderForKey (resolveFolders initResolve fs) k v)
    ∧ resolveFolders initResolve [⟨"A/B/C"⟩, ⟨"A/B/D"⟩] =
        ⟨[("A/B/D", freshId 3), ("A/B/C", freshId 2), ("A/B", freshId 1), ("A", freshId 0)],
         [⟨freshId 0, "A", none⟩, ⟨freshId 1, "B", some (freshId 0)⟩,
          ⟨freshId 2, "C", some (freshId 1)⟩, ⟨freshId 3, "D", some (freshId 1)⟩], 4⟩ := by
  have H := resolveFolders_spec fs initResolve
    (by intro k v h; cases h) (by rfl)
  have hkeys : (resolveFolders initResolve fs).pathMap.reverse.map Prod.fst
      = distinctKeys fs := H.2.2
  refine ⟨?_, hkeys, H.1, by decide⟩
  rw [H.2.1, ← hkeys]
  simp

/-- Witness instantiating C3's quantified clauses on the concrete
two-path proposal. -/
theorem c3_path_resolver_shares_prefixes_witness :
    (resolveFolders initResolve [⟨"A/B/C"⟩, ⟨"A/B/D"⟩]).newFolders.length
      = (distinctKeys [⟨"A/B/C"⟩, ⟨"A/B/D"⟩]).length
    ∧ folderForKey (resolveFolders initResolve [⟨"A/B/C"⟩, ⟨"A/B/D"⟩]) "A/B" (freshId 1) :=
  ⟨(c3_path_resolver_shares_prefixes [⟨"A/B/C"⟩, ⟨"A/B/D"⟩]).1,
   (c3_path_resolver_shares_prefixes [⟨"A/B/C"⟩, ⟨"A/B/D"⟩]).2.2.1 "A/B" (freshId 1)
     (by decide)⟩

/-! ## Incremental move-target resolution (C5, C6) -/

/-- C5: a `MoveBookmarks` target identifier is resolved first through the
session-created index, then through the precomputed name-to-ids index, and
is otherwise used as-is as a literal folder id with no existence check; in
particular the batch `[CreateFolder "Dev", MoveBookmarks "Dev"]` against a
tree with no prior `Dev` folder moves the bookmark to the id returned for
the newly created folder, via the session-created index. -/
theorem c5_move_target_resolution_order :
    (∀ (created : List (String × String)) (nameIdx : List (String × List String))
        (t v : String), alookup t created = some v → v ≠ "" →
        resolveTarget created nameIdx t = (some v, []))
    ∧ (∀ (created : List (String × String)) (nameIdx : List (String × List String))
        (t : String) (ids : List String), jsTruthyOpt (alookup t created) = false →
        alookup t nameIdx = some ids →
        (resolveTarget created nameIdx t).1 = ids.head?)
    ∧ (∀ (created : List (String × String)) (nameIdx : List (String × List String))
        (t : String), jsTruthyOpt (alookup t created) = false →
        alookup t nameIdx = none →
        resolveTarget created nameIdx t = (some t, []))
    ∧ buildNameIdx 10 [c5tree] = ⟨[⟨"40", "Other", none⟩], [("Other", ["40"])]⟩
    ∧ runBatch [("Other", ["40"])] "b1"
        [BMAction.createFolder "Dev" none, BMAction.moveBookmarks ["b1"] "Dev"]
      = ⟨[("Dev", chromeFreshId 0)], [("Dev", "1", chromeFreshId 0)],
         [("b1", chromeFreshId 0)], [], 1⟩ := by
  refine ⟨?_, ?_, ?_, by decide, by decide⟩
  · intro created nameIdx t v h1 h2
    have hb : (v == "") = false := beq_eq_false_iff_ne.mpr h2
    unfold resolveTarget
    rw [h1]
    simp [jsTruthyOpt, hb]
  · intro created nameIdx t ids ht hn
    unfold resolveTarget
    rw [ht, hn]
    simp only [Bool.false_eq_true, if_false]
    split <;> rfl
  · intro created nameIdx t ht hn
    unfold resolveTarget
    rw [ht, hn]
    simp

/-- Witness instantiating the three resolution-order clauses of C5. -/
theorem c5_move_target_resolution_order_witness :
    resolveTarget [("Dev", "77")] [("Dev", ["10"])] "Dev" = (some "77", [])
    ∧ (resolveTarget [] [("Dev", ["10"])] "Dev").1 = some "10"
    ∧ resolveTarget [] [] "literal-id" = (some "literal-id", []) :=
  ⟨c5_move_target_resolution_order.1 [("Dev", "77")] [("Dev", ["10"])] "Dev" "77"
      (by decide) (by decide),
   c5_move_target_resolution_order.2.1 [] [("Dev", ["10"])] "Dev" ["10"]
      (by decide) (by decide),
   c5_move_target_resolution_order.2.2.1 [] [] "literal-id" (by decide) (by decide)⟩

/-- C6: when the target name maps to more than one folder id, resolution
returns the first id of the index entry together with an ambiguity warning
and the action completes normally (the handler is total and produces the
stated state; no failure path exists for this case); the index entry lists
ids in pre-order traversal order, so the bookmark moves to the folder
encountered earlier in the traversal. -/
theorem c6_ambiguous_name_first_id :
    (∀ (created : List (String × String)) (nameIdx : List (String × List String))
        (t : String) (ids : List String), jsTruthyOpt (alookup t created) = false →
        alookup t nameIdx = some ids → 2 ≤ ids.length →
        resolveTarget created nameIdx t
          = (ids.head?, ["ambiguous folder name " ++ t]))
    ∧ buildNameIdx 10 [c6tree]
        = ⟨[⟨"10", "Dev", none⟩, ⟨"20", "Dev", none⟩], [("Dev", ["10", "20"])]⟩
    ∧ runBatch [("Dev", ["10", "20"])] "b1" [BMAction.moveBookmarks ["b1"] "Dev"]
        = ⟨[], [], [("b1", "10")], ["ambiguous folder name Dev"], 0⟩ := by
  refine ⟨?_, by decide, by decide⟩
  intro created nameIdx t ids ht hn h2
  have hb : (ids.length == 1) = false := by
    refine beq_eq_false_iff_ne.mpr ?_
    omega
  unfold resolveTarget
  rw [ht, hn]
  simp [hb]

/-- Witness instantiating C6's resolution clause on the two-`Dev` index. -/
theorem c6_ambiguous_name_first_id_witness :
    resolveTarget [] [("Dev", ["10", "20"])] "Dev"
      = (some "10", ["ambiguous folder name Dev"]) :=
  c6_ambiguous_name_first_id.1 [] [("Dev", ["10", "20"])] "Dev" ["10", "20"]
    (by decide) (by decide) (by decide)

/-! ## Serialization of dangling bookmarks (C10) -/

theorem renderItems_drop (F : List Folder) (xs ys : List Bookmark)
    (b : Bookmark) (fid : String) (hf : b.folder = some fid) :
    ∀ (fuel : Nat) (p : Option String) (ind : Nat),
      some fid ≠ p →
      fid ∉ renderedIds ⟨xs ++ b :: ys, F⟩ fuel p →
      renderItems ⟨xs ++ b :: ys, F⟩ fuel p ind
        = renderItems ⟨xs ++ ys, F⟩ fuel p ind := by
  intro fuel
  induction fuel with
  | zero => intro p ind _ _; rfl
  | succ fuel ih =>
      intro p ind hne hr
      rw [renderItems, renderItems]
      have hfmaps :
          (F.filter (fun f => f.parentId == p)).map (fun f =>
            renderFolderOpen ind f.name
              ++ renderItems ⟨xs ++ b :: ys, F⟩ fuel (some f.id) (ind + 4)
              ++ renderFolderClose ind)
          = (F.filter (fun f => f.parentId == p)).map (fun f =>
            renderFolderOpen ind f.name
              ++ renderItems ⟨xs ++ ys, F⟩ fuel (some f.id) (ind + 4)
              ++ renderFolderClose ind) := by
        refine List.map_congr_left ?_
        intro f hfmem
        have hrids : renderedIds ⟨xs ++ b :: ys, F⟩ (fuel + 1) p
            = (F.filter (fun f => f.parentId == p)).flatMap
                (fun f => f.id :: renderedIds ⟨xs ++ b :: ys, F⟩ fuel (some f.id)) := rfl
        have h1 : fid ≠ f.id := by
          intro e
          exact hr (by
            rw [hrids]
            exact List.mem_flatMap.mpr ⟨f, hfmem, e ▸ List.mem_cons_self _ _⟩)
        have h2 : fid ∉ renderedIds ⟨xs ++ b :: ys, F⟩ fuel (some f.id) := by
          intro hm
          exact hr (by
            rw [hrids]
            exact List.mem_flatMap.mpr ⟨f, hfmem, List.mem_cons_of_mem _ hm⟩)
        rw [ih (some f.id) (ind + 4) (fun e => h1 (Option.some.inj e)) h2]
      have hbfilter : (xs ++ b :: ys).filter (fun b2 => b2.folder == p)
          = (xs ++ ys).filter (fun b2 => b2.folder == p) := by
        rw [List.filter_append, List.filter_append, List.filter_cons_of_neg]
        rw [hf]
        simp only [beq_eq_false_iff_ne.mpr hne, Bool.false_eq_true, not_false_eq_true]
      show String.join ((F.filter (fun f => f.parentId == p)).map _)
            ++ String.join (((xs ++ b :: ys).filter (fun b2 => b2.folder == p)).map
                (renderBookmark ind))
          = String.join ((F.filter (fun f => f.parentId == p)).map _)
            ++ String.join (((xs ++ ys).filter (fun b2 => b2.folder == p)).map
                (renderBookmark ind))
      rw [hfmaps, hbfilter]

set_option maxRecDepth 40000 in
/-- C10: a bookmark whose `folder` field is a folder id the serializer
never reaches from the root through `parentId` links (the `renderedIds`
pre-order) contributes nothing to `exportToHTML`: the output with the
dangling bookmark present equals the output with it removed, so such
bookmarks are silently dropped rather than emitted at the root. -/
theorem c10_export_drops_dangling (F : List Folder) (xs ys : List Bookmark)
    (b : Bookmark) (fid : String)
    (hf : b.folder = some fid)
    (hr : fid ∉ reachableIds ⟨xs ++ b :: ys, F⟩) :
    exportToHTML ⟨xs ++ b :: ys, F⟩ = exportToHTML ⟨xs ++ ys, F⟩ := by
  unfold exportToHTML
  rw [renderItems_drop F xs ys b fid hf (F.length + 1) none 4
      (fun e => Option.noConfusion e) hr]

/-- Witness for C10: a bookmark pointing at the missing folder `ghost` is
dropped from the serialization. -/
theorem c10_export_drops_dangling_witness :
    exportToHTML ⟨[⟨"b1", "Kept", "http://k", none, none, none, none⟩,
                   ⟨"b2", "Lost", "http://l", none, none, none, some "ghost"⟩],
                  [⟨"F1", "Dir", none⟩]⟩
      = exportToHTML ⟨[⟨"b1", "Kept", "http://k", none, none, none, none⟩],
                      [⟨"F1", "Dir", none⟩]⟩ :=
  c10_export_drops_dangling [⟨"F1", "Dir", none⟩]
    [⟨"b1", "Kept", "http://k", none, none, none, none⟩] []
    ⟨"b2", "Lost", "http://l", none, none, none, some "ghost"⟩ "ghost"
    rfl (by decide)

/-! ## Fallback parse (C8) -/

theorem fallback_foldl_spec (q : Nat) (links : List DomNode) :
    ∀ acc : List Bookmark × Nat,
      ((links.foldl (fun acc link =>
          (acc.1 ++ [mkFallbackBookmark q acc.2 link], acc.2 + 1)) acc).1.length
        = acc.1.length + links.length)
      ∧ ∀ b2 ∈ (links.foldl (fun acc link =>
          (acc.1 ++ [mkFallbackBookmark q acc.2 link], acc.2 + 1)) acc).1,
          b2 ∈ acc.1 ∨ b2.folder = none := by
  induction links with
  | nil =>
      intro acc
      exact ⟨by simp, fun b2 hb2 => Or.inl hb2⟩
  | cons l ls ih =>
      intro acc
      rw [List.foldl_cons]
      have IH := ih (acc.1 ++ [mkFallbackBookmark q acc.2 l], acc.2 + 1)
      constructor
      · rw [IH.1]
        show (acc.1 ++ [mkFallbackBookmark q acc.2 l]).length + ls.length
          = acc.1.length + (l :: ls).length
        simp only [List.length_append, List.length_cons, List.length_nil]
        omega
      · intro b2 hb2
        rcases IH.2 b2 hb2 with hmem | hnone
        · rcases List.mem_append.mp hmem with h | h
          · exact Or.inl h
          · rcases List.mem_singleton.mp h with rfl
            exact Or.inr rfl
        · exact Or.inr hnone

/-- C8: when the document has no definition-list element, the parser
returns no folders and one root-level bookmark (with `folder` absent) per
link element anywhere in the document; in particular parsing
`<a href='http://x.com'>X</a>` yields exactly one bookmark with no folder
and an empty folder list. -/
theorem c8_fallback_flat_scan :
    (∀ (q : Nat) (doc : List DomNode), findFirstTag "dl" q doc = none →
        (parseDoc q doc).folders = []
        ∧ (parseDoc q doc).bookmarks.length = (collectTags "a" q doc).length
        ∧ ∀ b2 ∈ (parseDoc q doc).bookmarks, b2.folder = none)
    ∧ parseBookmarksHTML "<a href=\x27http://x.com\x27>X</a>"
        = ⟨[⟨freshId 0, "X", "http://x.com", none, none, none, none⟩], []⟩ := by
  constructor
  · intro q doc hdl
    have hp : parseDoc q doc =
        ⟨((collectTags "a" q doc).foldl (fun acc link =>
            (acc.1 ++ [mkFallbackBookmark q acc.2 link], acc.2 + 1)) ([], 0)).1, []⟩ := by
      unfold parseDoc
      rw [hdl]
    rw [hp]
    have H := fallback_foldl_spec q (collectTags "a" q doc) ([], 0)
    refine ⟨rfl, by simpa using H.1, ?_⟩
    intro b2 hb2
    rcases H.2 b2 hb2 with hmem | hnone
    · cases hmem
    · exact hnone
  · decide

/-- Witness instantiating C8's no-definition-list clause on a concrete
one-text-node document. -/
theorem c8_fallback_flat_scan_witness :
    (parseDoc 3 [DomNode.text "hi"]).folders = []
    ∧ (parseDoc 3 [DomNode.text "hi"]).bookmarks.length
        = (collectTags "a" 3 [DomNode.text "hi"]).length
    ∧ ∀ b2 ∈ (parseDoc 3 [DomNode.text "hi"]).bookmarks, b2.folder = none :=
  c8_fallback_flat_scan.1 3 [DomNode.text "hi"] rfl

/-! ## Purity of the state-updating operations (C9) -/

theorem hlookup_append_of_some {a : Nat} {v : JsVal} {c1 c2 : List (Nat × JsVal)}
    (h : hlookup a c1 = some v) : hlookup a (c1 ++ c2) = some v := by
  induction c1 with
  | nil => cases h
  | cons p rest ih =>
      obtain ⟨k, w⟩ := p
      rw [List.cons_append]
      by_cases e : k = a
      · rw [hlookup, if_pos e] at h ⊢
        exact h
      · rw [hlookup, if_neg e] at h ⊢
        exact ih h

theorem hlookup_hset_ne {a r : Nat} {v : JsVal} {cells : List (Nat × JsVal)}
    (hne : a ≠ r) : hlookup a (hset r v cells) = hlookup a cells := by
  induction cells with
  | nil => rfl
  | cons p rest ih =>
      obtain ⟨k, w⟩ := p
      rw [hset]
      by_cases e : k = r
      · rw [if_pos e]
        subst e
        have hka : ¬(k = a) := fun e2 => hne e2.symm
        rw [hlookup, hlookup, if_neg hka, if_neg hka]
      · rw [if_neg e]
        rw [hlookup, hlookup]
        by_cases e2 : k = a
        · rw [if_pos e2, if_pos e2]
        · rw [if_neg e2, if_neg e2]
          exact ih

theorem framedBelow_refl (N : Nat) (h : JsHeap) : framedBelow N h h :=
  ⟨Nat.le_refl _, fun _ _ _ hl => hl⟩

theorem framedBelow_trans {N : Nat} {h1 h2 h3 : JsHeap}
    (g1 : framedBelow N h1 h2) (g2 : framedBelow N h2 h3) : framedBelow N h1 h3 :=
  ⟨Nat.le_trans g1.1 g2.1, fun a v ha hl => g2.2 a v ha (g1.2 a v ha hl)⟩

theorem halloc_framedBelow (N : Nat) (h : JsHeap) (v : JsVal) :
    framedBelow N h (halloc h v).1 :=
  ⟨Nat.le_succ _, fun _ _ _ hl => hlookup_append_of_some hl⟩

theorem allocList_framedBelow (N : Nat) (vs : List JsVal) :
    ∀ h : JsHeap, framedBelow N h (allocList h vs).1 := by
  induction vs with
  | nil => intro h; exact framedBelow_refl N h
  | cons v vs ih =>
      intro h
      exact framedBelow_trans (halloc_framedBelow N h v) (ih (halloc h v).1)

theorem applyAssignmentHeap_framedBelow (N : Nat) (pm : List (String × String))
    (arrRef : Nat) (hN : N ≤ arrRef) (h : JsHeap) (a : SuggestionAssignment) :
    framedBelow N h (applyAssignmentHeap pm arrRef h a) := by
  unfold applyAssignmentHeap
  split
  · exact framedBelow_refl N h
  · split
    · split
      · exact framedBelow_refl N h
      · split
        · exact framedBelow_refl N h
        · split
          · refine ⟨Nat.le_succ _, ?_⟩
            intro a2 v2 ha2 hl
            show hlookup a2 (hset arrRef _ (halloc h _).1.cells) = some v2
            rw [hlookup_hset_ne (by omega)]
            exact hlookup_append_of_some hl
          · exact framedBelow_refl N h
    · exact framedBelow_refl N h

theorem foldl_assignHeap_framedBelow (N : Nat) (pm : List (String × String))
    (arrRef : Nat) (hN : N ≤ arrRef) (as : List SuggestionAssignment) :
    ∀ h : JsHeap, framedBelow N h (as.foldl (applyAssignmentHeap pm arrRef) h) := by
  induction as with
  | nil => intro h; exact framedBelow_refl N h
  | cons a as ih =>
      intro h
      rw [List.foldl_cons]
      exact framedBelow_trans (applyAssignmentHeap_framedBelow N pm arrRef hN h a)
        (ih (applyAssignmentHeap pm arrRef h a))

theorem mapMoveRefs_framedBelow (N : Nat) (ids : List String) (target : String) :
    ∀ (refs : List Nat) (h : JsHeap),
      framedBelow N h (mapMoveRefs ids target h refs).1 := by
  intro refs
  induction refs with
  | nil => intro h; exact framedBelow_refl N h
  | cons r rest ih =>
      intro h
      rw [mapMoveRefs]
      split
      · split
        · exact framedBelow_trans (halloc_framedBelow N h _) (ih _)
        · exact ih h
      · exact ih h

theorem hlookup_mem {a : Nat} {v : JsVal} :
    ∀ {cells : List (Nat × JsVal)}, hlookup a cells = some v → (a, v) ∈ cells := by
  intro cells
  induction cells with
  | nil => intro hl; cases hl
  | cons p rest ih =>
      obtain ⟨k, w⟩ := p
      intro hl
      rw [hlookup] at hl
      by_cases e : k = a
      · rw [if_pos e] at hl
        subst e
        rcases Option.some.inj hl with rfl
        exact List.mem_cons_self _ _
      · rw [if_neg e] at hl
        exact List.mem_cons_of_mem _ (ih hl)

theorem hlookup_lt_of_wf {h : JsHeap} (hwf : wfHeap h) {a : Nat} {v : JsVal}
    (hl : hlookup a h.cells = some v) : a < h.next :=
  hwf (a, v) (hlookup_mem hl)

theorem applySuggestionHeap_framedBelow (h : JsHeap) (libRef : Nat)
    (s : Suggestion) :
    framedBelow h.next h (applySuggestionHeap h libRef s).1 := by
  unfold applySuggestionHeap
  split
  · split
    · dsimp only
      refine framedBelow_trans (framedBelow_trans (framedBelow_trans
        (framedBelow_trans (halloc_framedBelow _ _ _) (allocList_framedBelow _ _ _))
        (halloc_framedBelow _ _ _))
        (foldl_assignHeap_framedBelow _ _ _ (Nat.le_refl _) _ _))
        (halloc_framedBelow _ _ _)
    · exact framedBelow_refl _ _
  · exact framedBelow_refl _ _

theorem applyActionHeap_framedBelow (h : JsHeap) (libRef : Nat) (nid : String)
    (act : BMAction) :
    framedBelow h.next h (applyActionHeap h libRef nid act).1 := by
  unfold applyActionHeap
  split
  · split
    · split
      · dsimp only
        exact framedBelow_trans (framedBelow_trans
          (mapMoveRefs_framedBelow _ _ _ _ _) (halloc_framedBelow _ _ _))
          (halloc_framedBelow _ _ _)
      · exact framedBelow_refl _ _
    · split
      · dsimp only
        exact framedBelow_trans (framedBelow_trans
          (halloc_framedBelow _ _ _) (halloc_framedBelow _ _ _))
          (halloc_framedBelow _ _ _)
      · exact framedBelow_refl _ _
  · exact framedBelow_refl _ _

/-- C9: both state-updating operations are pure at the heap level: under a
well-formed heap, every address allocated before the operation still holds
exactly its previous value afterwards (the full proposal application only
writes into the freshly copied bookmarks array, and the incremental action
updater only allocates), so the input Library and all its objects remain
available unchanged as a fallback while the operation returns a freshly
allocated library. -/
theorem c9_operations_never_mutate_input (h : JsHeap) (libRef : Nat)
    (s : Suggestion) (nid : String) (act : BMAction) (hwf : wfHeap h) :
    (∀ a v, hlookup a h.cells = some v →
        hlookup a (applySuggestionHeap h libRef s).1.cells = some v)
    ∧ (∀ a v, hlookup a h.cells = some v →
        hlookup a (applyActionHeap h libRef nid act).1.cells = some v) :=
  ⟨fun a v hl => (applySuggestionHeap_framedBelow h libRef s).2 a v
      (hlookup_lt_of_wf hwf hl) hl,
   fun a v hl => (applyActionHeap_framedBelow h libRef nid act).2 a v
      (hlookup_lt_of_wf hwf hl) hl⟩

/-- Witness for C9: in the concrete heap, the library object, its arrays
and its bookmark keep their values across both operations. -/
theorem c9_operations_never_mutate_input_witness :
    hlookup 3 (applySuggestionHeap c9heap 3 ⟨[⟨"X"⟩], []⟩).1.cells
      = some (JsVal.libObj 1 2)
    ∧ hlookup 0 (applyActionHeap c9heap 3 "nf"
        (BMAction.moveBookmarks ["b1"] "Dev")).1.cells
      = some (JsVal.bkObj ⟨"b1", "T", "u", none, none, none, none⟩) :=
  ⟨(c9_operations_never_mutate_input c9heap 3 ⟨[⟨"X"⟩], []⟩ "nf"
      (BMAction.moveBookmarks ["b1"] "Dev") (by unfold wfHeap; decide)).1 3
      (JsVal.libObj 1 2) (by decide),
   (c9_operations_never_mutate_input c9heap 3 ⟨[⟨"X"⟩], []⟩ "nf"
      (BMAction.moveBookmarks ["b1"] "Dev") (by unfold wfHeap; decide)).2 0
      (JsVal.bkObj ⟨"b1", "T", "u", none, none, none, none⟩) (by decide)⟩

end Markflow
